import Mathlib

/-!
# Verification of the `eventail` listener registry and emission engine

Shallow embedding of `src/Eventail.ts` and `src/ListenerIndex.ts`.

Modelling conventions:
* callback identity and context identity are modelled as natural numbers
  (JS compares callbacks and contexts by reference; a `Nat` identifier is
  that reference); an omitted context is `Option.none`;
* an event type (`string | number`) is `Sum String Int`;
* JS `Map`s and `Set`s are association lists with reference-style lookup;
  insertion of a new key appends, as JS `Map.set` does;
* JS arrays are mutable objects compared by reference in `emit`
  (`actualListenerData._listeners === snapshot`), so every array value
  carries an identity tag `arrId`; in-place mutation (push, shift, pop,
  splice, compaction) keeps the tag, `slice()` allocates a fresh tag from
  the state's `fresh` counter;
* the only mutable field of a listener object is `_called`; listener
  objects are shared between an emission snapshot and a cloned live array,
  so `_called` is stored centrally: each listener record carries a unique
  identity `lid`, and the machine state holds the set `called` of the
  identities whose `_called` flag is `true`;
* callbacks are arbitrary client code; a callback's behaviour is an
  environment `Env` that maps (callback id, context, number of previous
  invocations of that pair) to the list of registry commands the callback
  performs when invoked (a JS closure can consult its own invocation
  history, which is how clients break emit recursion); the invocation
  history is the ghost `log` of the state;
* nested `emit` calls are interpreted with fuel; only a nested `emit`
  consumes fuel, so any result other than `Res.oof` is the exact behaviour
  of the JS code.
-/

/-- An event type: JS `string | number`. -/
abbrev Channel : Type := Sum String Int

/-- One listener record (interface `Listener` in `Eventail.ts`).
`lid` is the object identity of the record; the mutable `_called` flag is
stored in the machine state's `called` set, keyed by `lid`. -/
structure Listener where
  lid : Nat
  cb : Nat
  ctx : Option Nat
  prio : Int
  onceFlag : Bool
deriving Repr, DecidableEq

/-- Junk listener returned by out-of-range array reads (never used on the
reachable paths, mirroring that the JS code never indexes out of range). -/
def junkListener : Listener := ⟨0, 0, none, 0, false⟩

/-- A ghost record of one callback invocation: channel, callback identity,
context and the priority the listener was registered with. -/
structure Entry where
  ch : Channel
  cb : Nat
  ctx : Option Nat
  prio : Int
deriving Repr, DecidableEq

/-- Association-list lookup (JS `Map.get`). -/
def alGet {α β : Type} [DecidableEq α] (k : α) : List (α × β) → Option β
  | [] => none
  | (k', v) :: rest => if k = k' then some v else alGet k rest

/-- Association-list update (JS `Map.set`): replaces the value of an
existing key in place, appends a new key. -/
def alSet {α β : Type} [DecidableEq α] (k : α) (v : β) : List (α × β) → List (α × β)
  | [] => [(k, v)]
  | (k', v') :: rest => if k = k' then (k', v) :: rest else (k', v') :: alSet k v rest

/-- Association-list removal (JS `Map.delete`). -/
def alDelete {α β : Type} [DecidableEq α] (k : α) : List (α × β) → List (α × β)
  | [] => []
  | (k', v') :: rest => if k = k' then rest else (k', v') :: alDelete k rest

/-- Keys of a registry-style association list. -/
def alKeys {α β : Type} (l : List (α × β)) : List α := l.map Prod.fst

/-- The duplicate/priority index (`ListenerIndex.ts`): a map from context
identity to a map from callback identity to priority, plus a map from
callback identity to priority for the listeners registered without a
context. -/
structure Index where
  ctxMap : List (Nat × List (Nat × Int))
  noCtx : List (Nat × Int)
deriving Repr, DecidableEq

/-- `new ListenerIndex(callback, context, priority)`. -/
def Index.init (cb : Nat) (ctx : Option Nat) (prio : Int) : Index :=
  match ctx with
  | none => ⟨[], [(cb, prio)]⟩
  | some c => ⟨[(c, [(cb, prio)])], []⟩

/-- `ListenerIndex.insert`. -/
def Index.insert (idx : Index) (cb : Nat) (ctx : Option Nat) (prio : Int) : Index :=
  match ctx with
  | none =>
    match alGet cb idx.noCtx with
    | some _ => idx
    | none => { idx with noCtx := idx.noCtx ++ [(cb, prio)] }
  | some c =>
    match alGet c idx.ctxMap with
    | none => { idx with ctxMap := idx.ctxMap ++ [(c, [(cb, prio)])] }
    | some m =>
      match alGet cb m with
      | some _ => idx
      | none => { idx with ctxMap := alSet c (m ++ [(cb, prio)]) idx.ctxMap }

/-- `ListenerIndex.remove`. -/
def Index.remove (idx : Index) (cb : Nat) (ctx : Option Nat) : Index :=
  match ctx with
  | none => { idx with noCtx := alDelete cb idx.noCtx }
  | some c =>
    match alGet c idx.ctxMap with
    | none => idx
    | some m =>
      let m' := alDelete cb m
      if m' = [] then { idx with ctxMap := alDelete c idx.ctxMap }
      else { idx with ctxMap := alSet c m' idx.ctxMap }

/-- `ListenerIndex.has`. -/
def Index.has (idx : Index) (cb : Nat) (ctx : Option Nat) : Bool :=
  match ctx with
  | none => (alGet cb idx.noCtx).isSome
  | some c =>
    match alGet c idx.ctxMap with
    | none => false
    | some m => (alGet cb m).isSome

/-- `ListenerIndex.getPriority`. -/
def Index.getPriority (idx : Index) (cb : Nat) (ctx : Option Nat) : Option Int :=
  match ctx with
  | none => alGet cb idx.noCtx
  | some c =>
    match alGet c idx.ctxMap with
    | none => none
    | some m => alGet cb m

/-- A channel bucket (interface `ListenerData`): the ordered listener
array (with its object identity `arrId`), the emission lock flag and the
duplicate index. -/
structure Bucket where
  arrId : Nat
  list : List Listener
  locked : Bool
  index : Index
deriving Repr, DecidableEq

/-- The machine state: the `listeners` map of the emitter, a fresh-identity
counter for array and listener objects, the set of listener identities
whose `_called` flag is set, and the ghost invocation log. -/
structure MState where
  registry : List (Channel × Bucket)
  fresh : Nat
  called : List Nat
  log : List Entry
deriving Repr, DecidableEq

/-- The empty emitter. -/
def MState.empty : MState := ⟨[], 0, [], []⟩

/-- One step of the binary search of `addListener`
(`while (l < r) { m = (l + r) >>> 1; list[m]._priority < p ? l = m + 1 : r = m }`),
with an explicit iteration budget `gas`; `gas = r - l` bounds the number
of iterations, so `lbLoop` below is the exact loop. -/
def lbGo (list : List Listener) (p : Int) : Nat → Nat → Nat → Nat
  | 0, l, _ => l
  | gas + 1, l, r =>
    if l < r then
      let m := (l + r) / 2
      if (list.getD m junkListener).prio < p then lbGo list p gas (m + 1) r
      else lbGo list p gas l m
    else l

/-- The binary search of `addListener`: insertion point for priority `p`. -/
def lbLoop (list : List Listener) (p : Int) : Nat :=
  lbGo list p list.length 0 list.length

/-- The ordered insertion of `addListener`: append fast path, prepend fast
path, else binary search and splice. -/
def insertSorted (list : List Listener) (x : Listener) : List Listener :=
  if list = [] ∨ (list.getLast?.getD junkListener).prio ≤ x.prio then list ++ [x]
  else if x.prio ≤ (list.headD junkListener).prio then x :: list
  else
    let k := lbLoop list x.prio
    list.take k ++ x :: list.drop k

/-- The error thrown by `addListener` on a duplicate `(callback, context)`
pair (`DuplicateListenerError` of the spec). -/
inductive EvError where
  | duplicateListener
deriving Repr, DecidableEq

/-- `Eventail.addListener` (the `register` operation): duplicate check
against the index, index insertion, copy-on-write when the bucket is
locked, then ordered insertion. -/
def addListener (st : MState) (ch : Channel) (onceFlag : Bool) (p : Int)
    (cb : Nat) (ctx : Option Nat) : Except EvError MState :=
  match alGet ch st.registry with
  | none =>
    Except.ok { st with
      fresh := st.fresh + 2,
      registry := alSet ch
        { arrId := st.fresh,
          list := [⟨st.fresh + 1, cb, ctx, p, onceFlag⟩],
          locked := false,
          index := Index.init cb ctx p } st.registry }
  | some b =>
    if b.index.has cb ctx then Except.error EvError.duplicateListener
    else
      let idx := b.index.insert cb ctx p
      let b1 : Bucket :=
        if b.locked then { b with locked := false, arrId := st.fresh, index := idx }
        else { b with index := idx }
      let st1 := if b.locked then { st with fresh := st.fresh + 1 } else st
      let x : Listener := ⟨st1.fresh, cb, ctx, p, onceFlag⟩
      Except.ok { st1 with
        fresh := st1.fresh + 1,
        registry := alSet ch { b1 with list := insertSorted b1.list x } st1.registry }

/-- The linear scan of `off` (`for (let i = 1; i < lastIndex; i++)`), with
an iteration budget `gas` that is chosen large enough to be exact. -/
def scanGo (list : List Listener) (cb : Nat) (ctx : Option Nat) :
    Nat → Nat → Nat → Option Nat
  | 0, _, _ => none
  | gas + 1, i, stop =>
    if i < stop then
      if (list.getD i junkListener).cb = cb ∧ (list.getD i junkListener).ctx = ctx then
        some i
      else scanGo list cb ctx gas (i + 1) stop
    else none

/-- The first binary-search loop of `off`
(`while (l <= r) { m = (l + r) >>> 1; list[m]._priority < p ? l = m + 1 : r = m - 1 }`);
returns the final `l` (`start`). `r` can reach `-1`, so it is an `Int`;
`l` stays a natural number. `gas = (r + 1 - l).toNat` bounds the number
of iterations, so the wrapper below is the exact loop. -/
def offLowerGo (list : List Listener) (p : Int) : Nat → Nat → Int → Nat
  | 0, l, _ => l
  | gas + 1, l, r =>
    if (l : Int) ≤ r then
      let m := (l + r.toNat) / 2
      if (list.getD m junkListener).prio < p then offLowerGo list p gas (m + 1) r
      else offLowerGo list p gas l ((m : Int) - 1)
    else l

/-- The second binary-search loop of `off` (upper bound); returns the
final `r` (`end`). -/
def offUpperGo (list : List Listener) (p : Int) : Nat → Nat → Int → Int
  | 0, _, r => r
  | gas + 1, l, r =>
    if (l : Int) ≤ r then
      let m := (l + r.toNat) / 2
      if (list.getD m junkListener).prio ≤ p then offUpperGo list p gas (m + 1) r
      else offUpperGo list p gas l ((m : Int) - 1)
    else r

/-- The bounded scan of `off`'s binary path
(`for (let i = start; i <= end; i++)`). -/
def scanIGo (list : List Listener) (cb : Nat) (ctx : Option Nat) :
    Nat → Nat → Int → Option Nat
  | 0, _, _ => none
  | gas + 1, i, stop =>
    if (i : Int) ≤ stop then
      if (list.getD i junkListener).cb = cb ∧ (list.getD i junkListener).ctx = ctx then
        some i
      else scanIGo list cb ctx gas (i + 1) stop
    else none

/-- The body of `Eventail.off` after the copy-on-write step: `st1` is the
state with the (possibly freshly cloned) bucket `b` already written at
`ch`. `cbq = none` is the remove-everything form. On the delete-channel
paths the JS code also purges the bucket's index, but the bucket object is
dropped from the map in the same step, so that mutation is unobservable
and the model just deletes the map entry. -/
def offCore (st1 : MState) (ch : Channel) (b : Bucket) (cbq : Option Nat)
    (ctx : Option Nat) : MState :=
  if b.list = [] then { st1 with registry := alDelete ch st1.registry }
  else
    match cbq with
    | none => { st1 with registry := alDelete ch st1.registry }
    | some cb =>
      let list := b.list
      let n := list.length
      if (list.getD 0 junkListener).cb = cb ∧ (list.getD 0 junkListener).ctx = ctx then
        if n = 1 then { st1 with registry := alDelete ch st1.registry }
        else { st1 with registry := alSet ch { b with list := list.drop 1 } st1.registry }
      else if (list.getD (n - 1) junkListener).cb = cb ∧
          (list.getD (n - 1) junkListener).ctx = ctx then
        { st1 with registry := alSet ch { b with list := list.dropLast } st1.registry }
      else if n < 10 ∨ (list.getD 0 junkListener).prio = (list.getD (n - 1) junkListener).prio then
        match scanGo list cb ctx n 1 (n - 1) with
        | some i =>
          { st1 with registry := alSet ch { b with list := list.eraseIdx i } st1.registry }
        | none => st1
      else
        match b.index.getPriority cb ctx with
        | none => st1
        | some p =>
          let start := offLowerGo list p n 0 ((n : Int) - 1)
          let stop := offUpperGo list p n start ((n : Int) - 1)
          match scanIGo list cb ctx n start stop with
          | some i =>
            { st1 with registry := alSet ch { b with list := list.eraseIdx i } st1.registry }
          | none => st1

/-- `Eventail.off` (the `remove` operation): find the bucket, clone and
unlock it if it is locked (copy-on-write), then run the removal body. -/
def offOp (st : MState) (ch : Channel) (cbq : Option Nat) (ctx : Option Nat) : MState :=
  match alGet ch st.registry with
  | none => st
  | some b0 =>
    if b0.locked then
      offCore
        { st with
          fresh := st.fresh + 1,
          registry := alSet ch { b0 with locked := false, arrId := st.fresh } st.registry }
        ch { b0 with locked := false, arrId := st.fresh } cbq ctx
    else offCore st ch b0 cbq ctx

/-- A registry command a callback can perform during its invocation. -/
inductive Cmd where
  | register (ch : Channel) (onceFlag : Bool) (prio : Int) (cb : Nat) (ctx : Option Nat)
  | removeAll (ch : Channel)
  | removeOne (ch : Channel) (cb : Nat) (ctx : Option Nat)
  | emitCmd (ch : Channel)
deriving Repr, DecidableEq

/-- A callback environment: the commands a callback with the given
identity and context performs, given how many times that
(callback, context) pair has already been invoked. -/
def Env : Type := Nat → Option Nat → Nat → List Cmd

/-- Result of running client code: normal return with the new state, a
propagating exception with the state at throw time, or exhausted fuel
(only a nested `emit` consumes fuel). -/
inductive Res (α : Type) where
  | ok : MState → α → Res α
  | err : MState → Res α
  | oof : Res α
deriving Repr, DecidableEq

/-- Number of invocations of a (callback, context) pair recorded so far. -/
def countInv (log : List Entry) (cb : Nat) (ctx : Option Nat) : Nat :=
  (log.filter (fun e => decide (e.cb = cb ∧ e.ctx = ctx))).length

/-- The ghost log entry for invoking listener `x` on channel `ch`. -/
def mkEntry (ch : Channel) (x : Listener) : Entry := ⟨ch, x.cb, x.ctx, x.prio⟩

/-- Interpret one command; `emitCall` is the (fuel-instantiated) nested
`emit`. `addListener` throws before mutating, so the exception state is
the input state. -/
def runCmdH (emitCall : MState → Channel → Res Unit) (st : MState) :
    Cmd → Res Unit
  | Cmd.register ch onceFlag prio cb ctx =>
    match addListener st ch onceFlag prio cb ctx with
    | Except.ok st' => Res.ok st' ()
    | Except.error _ => Res.err st
  | Cmd.removeAll ch => Res.ok (offOp st ch none none) ()
  | Cmd.removeOne ch cb ctx => Res.ok (offOp st ch (some cb) ctx) ()
  | Cmd.emitCmd ch => emitCall st ch

/-- Interpret a command list left to right, stopping at the first
exception. -/
def runCmdsH (emitCall : MState → Channel → Res Unit) (st : MState) :
    List Cmd → Res Unit
  | [] => Res.ok st ()
  | c :: cs =>
    match runCmdH emitCall st c with
    | Res.ok st1 _ => runCmdsH emitCall st1 cs
    | Res.err st1 => Res.err st1
    | Res.oof => Res.oof

/-- The delivery loop of `emit`: iterate the snapshot in order; for each
listener, record the invocation, run the callback's commands, then mark a
`once` listener's `_called` flag. Returns the `hasItemsToDelete` flag and
the list of invocations this loop performed directly (a ghost
observation; nested emissions log their own invocations). -/
def emitLoopH (env : Env) (emitCall : MState → Channel → Res Unit) (ch : Channel)
    (st : MState) : List Listener → Res (Bool × List Entry)
  | [] => Res.ok st (false, [])
  | x :: rest =>
    let cnt := countInv st.log x.cb x.ctx
    let st1 := { st with log := st.log ++ [mkEntry ch x] }
    match runCmdsH emitCall st1 (env x.cb x.ctx cnt) with
    | Res.ok st2 _ =>
      let st3 := if x.onceFlag then { st2 with called := st2.called.insert x.lid } else st2
      match emitLoopH env emitCall ch st3 rest with
      | Res.ok st4 (hd, invs) => Res.ok st4 (hd || x.onceFlag, mkEntry ch x :: invs)
      | Res.err st4 => Res.err st4
      | Res.oof => Res.oof
    | Res.err st2 => Res.err st2
    | Res.oof => Res.oof

/-- The compaction step of `emit` on the re-fetched bucket `b3` (lock
already reconciled): write the bucket back, and when a `once` listener
fired, keep only the unfired records, purge the fired ones from the
index, and delete the channel when nothing remains. -/
def emitCompact (st2 : MState) (ch : Channel) (b3 : Bucket) (hasDel : Bool)
    (invs : List Entry) : Res (Bool × List Entry) :=
  let st3 := { st2 with registry := alSet ch b3 st2.registry }
  if hasDel then
    let keep := b3.list.filter (fun x => decide (x.lid ∉ st3.called))
    let gone := b3.list.filter (fun x => decide (x.lid ∈ st3.called))
    let idx := gone.foldl (fun acc x => acc.remove x.cb x.ctx) b3.index
    if keep = [] then
      Res.ok { st3 with registry := alDelete ch st3.registry } (true, invs)
    else
      Res.ok { st3 with
        registry := alSet ch { b3 with list := keep, index := idx } st3.registry }
        (true, invs)
  else Res.ok st3 (true, invs)

/-- The reconciliation tail of `emit`: re-fetch the bucket (the channel
may have been removed), release the lock when the live array is still the
snapshot, then compact. -/
def emitFinish (st2 : MState) (ch : Channel) (snapId : Nat) (hasDel : Bool)
    (invs : List Entry) : Res (Bool × List Entry) :=
  match alGet ch st2.registry with
  | none => Res.ok st2 (true, invs)
  | some b2 =>
    emitCompact st2 ch (if b2.arrId = snapId then { b2 with locked := false } else b2)
      hasDel invs

/-- `Eventail.emit` for one call, with the nested-emit behaviour supplied
as `emitCall`: acquire the stable view (lock, or clone when already
locked), deliver, then reconcile and compact. -/
def runEmitH (env : Env) (emitCall : MState → Channel → Res Unit) (st : MState)
    (ch : Channel) : Res (Bool × List Entry) :=
  match alGet ch st.registry with
  | none => Res.ok st (false, [])
  | some b =>
    if b.list = [] then Res.ok st (false, [])
    else
      let snapId := if b.locked then st.fresh else b.arrId
      let st1 :=
        if b.locked then
          { st with
            fresh := st.fresh + 1,
            registry := alSet ch { b with arrId := st.fresh } st.registry }
        else { st with registry := alSet ch { b with locked := true } st.registry }
      match emitLoopH env emitCall ch st1 b.list with
      | Res.err st2 => Res.err st2
      | Res.oof => Res.oof
      | Res.ok st2 (hasDel, invs) => emitFinish st2 ch snapId hasDel invs

/-- Discard the value of an emission result. -/
def dropVal : Res (Bool × List Entry) → Res Unit
  | Res.ok st _ => Res.ok st ()
  | Res.err st => Res.err st
  | Res.oof => Res.oof

/-- The fuelled `emit`: a nested `emit` reached at fuel `0` runs out of
fuel, otherwise it runs with one unit less. -/
def runEmit : Nat → Env → MState → Channel → Res (Bool × List Entry)
  | 0, env, st, ch => runEmitH env (fun _ _ => Res.oof) st ch
  | fuel + 1, env, st, ch =>
    runEmitH env (fun st1 ch1 => dropVal (runEmit fuel env st1 ch1)) st ch

/-- The nested-emit behaviour at a given fuel. -/
def nestCall (fuel : Nat) (env : Env) : MState → Channel → Res Unit :=
  match fuel with
  | 0 => fun _ _ => Res.oof
  | f + 1 => fun st ch => dropVal (runEmit f env st ch)

/-- The environment of inert callbacks: every callback does nothing. -/
def envNil : Env := fun _ _ _ => []

/-- An environment is inert when no callback performs any command. -/
def EnvInert (env : Env) : Prop := ∀ cb ctx n, env cb ctx n = []

/-- The `_called` set after the delivery loop marks the `once` listeners
of a snapshot. -/
def markAll (called : List Nat) (snap : List Listener) : List Nat :=
  snap.foldl (fun acc x => if x.onceFlag then acc.insert x.lid else acc) called

/-- The effect of one `emit` call whose callbacks perform no commands,
written out explicitly: stable view, ghost marking, reconciliation and
compaction. `runEmit_inert` below proves this is what `runEmit` does
under an inert environment, at every fuel. -/
def plainStep (st : MState) (ch : Channel) : Res (Bool × List Entry) :=
  match alGet ch st.registry with
  | none => Res.ok st (false, [])
  | some b =>
    if b.list = [] then Res.ok st (false, [])
    else
      let st1 :=
        if b.locked then
          { st with
            fresh := st.fresh + 1,
            registry := alSet ch { b with arrId := st.fresh } st.registry }
        else { st with registry := alSet ch { b with locked := true } st.registry }
      let st2 := { st1 with
        called := markAll st1.called b.list,
        log := st1.log ++ b.list.map (mkEntry ch) }
      let b2 := if b.locked then { b with arrId := st.fresh } else { b with locked := true }
      emitCompact st2 ch { b2 with locked := false } (b.list.any (fun x => x.onceFlag))
        (b.list.map (mkEntry ch))

/-- The state after one inert emission. -/
def plainState (st : MState) (ch : Channel) : MState :=
  match plainStep st ch with
  | Res.ok s _ => s
  | Res.err s => s
  | Res.oof => st

/-- Iterated inert emissions on one channel. -/
def plainEmitN : Nat → MState → Channel → MState
  | 0, st, _ => st
  | n + 1, st, ch => plainEmitN n (plainState st ch) ch

/-- A listener sequence sorted in ascending priority order. -/
def SortedB (l : List Listener) : Prop :=
  List.Pairwise (fun a b => a.prio ≤ b.prio) l

/-- The registry invariant of the spec: every channel bucket's sequence is
sorted by priority. -/
def RegInv (st : MState) : Prop := ∀ p ∈ st.registry, SortedB p.2.list

/-- Listener object identities of a sequence. -/
def lidsOf (l : List Listener) : List Nat := l.map (fun x => x.lid)

/-- Identity pairs (callback, context) of a sequence. -/
def pairsOf (l : List Listener) : List (Nat × Option Nat) :=
  l.map (fun x => (x.cb, x.ctx))

/-- The sortedness invariant evaluated on the state carried by a result:
a run that exhausts its fuel carries no state. -/
def ResRegInv {α : Type} : Res α → Prop
  | Res.ok st _ => ∀ p ∈ st.registry, SortedB p.2.list
  | Res.err st => ∀ p ∈ st.registry, SortedB p.2.list
  | Res.oof => True

instance sortedBDecidable (l : List Listener) : Decidable (SortedB l) :=
  inferInstanceAs (Decidable (List.Pairwise (fun a b : Listener => a.prio ≤ b.prio) l))

instance regInvDecidable (st : MState) : Decidable (RegInv st) :=
  List.decidableBAll (fun p : Channel × Bucket => SortedB p.2.list) st.registry

instance exceptDecidableEq {α β : Type} [DecidableEq α] [DecidableEq β] :
    DecidableEq (Except α β) := fun x y =>
  match x, y with
  | Except.ok a, Except.ok b =>
    if h : a = b then isTrue (by rw [h]) else isFalse (fun he => h (Except.ok.inj he))
  | Except.error a, Except.error b =>
    if h : a = b then isTrue (by rw [h]) else isFalse (fun he => h (Except.error.inj he))
  | Except.ok _, Except.error _ => isFalse (fun he => Except.noConfusion he)
  | Except.error _, Except.ok _ => isFalse (fun he => Except.noConfusion he)

/-- Well-formedness of an index as JS `Map`s guarantee it: no duplicate
keys at either level. -/
def IndexWF (idx : Index) : Prop :=
  (alKeys idx.noCtx).Nodup ∧ (alKeys idx.ctxMap).Nodup ∧
  ∀ q ∈ idx.ctxMap, (alKeys q.2).Nodup

/-- Number of logged invocations of a `(channel, callback, context)`
triple. -/
def countPair (log : List Entry) (ch : Channel) (cb : Nat) (ctx : Option Nat) : Nat :=
  (log.filter (fun e => decide (e.ch = ch ∧ e.cb = cb ∧ e.ctx = ctx))).length

/-- No listener with the given identity pair is present in the channel's
bucket. -/
def PairGone (st : MState) (ch : Channel) (cb : Nat) (ctx : Option Nat) : Prop :=
  ∀ b, alGet ch st.registry = some b → ∀ x ∈ b.list, ¬(x.cb = cb ∧ x.ctx = ctx)

/-- Invariant threaded through the emissions after a `once` listener has
fired: unique registry keys, no listener with the pair left on the
channel, and an unlocked bucket. -/
def TailInv (s : MState) (ch : Channel) (cb : Nat) (ctx : Option Nat) : Prop :=
  (alKeys s.registry).Nodup ∧ PairGone s ch cb ctx ∧
  (∀ b, alGet ch s.registry = some b → b.locked = false)

/-- A well-formed resting state of a channel holding the listener `l`:
the bucket is unlocked, listener identities are unique and unfired, and
registry keys are unique. -/
def GoodBucket (st : MState) (ch : Channel) (l : Listener) : Prop :=
  ∃ b, alGet ch st.registry = some b ∧ b.locked = false ∧ l ∈ b.list ∧
    (lidsOf b.list).Nodup ∧ (∀ x ∈ b.list, x.lid ∉ st.called) ∧
    (alKeys st.registry).Nodup

instance indexWFDecidable (idx : Index) : Decidable (IndexWF idx) :=
  inferInstanceAs (Decidable ((alKeys idx.noCtx).Nodup ∧ (alKeys idx.ctxMap).Nodup ∧
    ∀ q ∈ idx.ctxMap, (alKeys q.2).Nodup))

/-- The channel used by the concrete witness states. -/
def chX : Channel := Sum.inl "x"

/-- A concrete two-listener bucket used by witnesses: callback 2 at
priority 10 before callback 1 at priority 50. -/
def bW : Bucket :=
  { arrId := 0
    list := [⟨1, 2, none, 10, false⟩, ⟨2, 1, none, 50, false⟩]
    locked := false
    index := ⟨[], [(2, 10), (1, 50)]⟩ }

/-- A concrete witness state holding `bW` on channel `chX`. -/
def stW : MState := { registry := [(chX, bW)], fresh := 3, called := [], log := [] }

/-- Registry-level form of the sortedness invariant. -/
def RInv (reg : List (Channel × Bucket)) : Prop := ∀ p ∈ reg, SortedB p.2.list


theorem alGet_alSet_self {α β : Type} [DecidableEq α] (k : α) (v : β) (l : List (α × β)) :
    alGet k (alSet k v l) = some v := by
  induction l with
  | nil => simp [alGet, alSet]
  | cons hd tl ih =>
    obtain ⟨k', v'⟩ := hd
    by_cases h : k = k'
    · subst h; simp [alGet, alSet]
    · simp [alGet, alSet, h, ih]

theorem alGet_alSet_ne {α β : Type} [DecidableEq α] {k k' : α} (v : β) (l : List (α × β))
    (h : k ≠ k') : alGet k (alSet k' v l) = alGet k l := by
  induction l with
  | nil => simp [alGet, alSet, h]
  | cons hd tl ih =>
    obtain ⟨k'', v''⟩ := hd
    by_cases h2 : k' = k''
    · subst h2; simp [alGet, alSet, h]
    · by_cases h3 : k = k'' <;> simp [alGet, alSet, h2, h3, ih]

theorem mem_alSet {α β : Type} [DecidableEq α] {p : α × β} {k : α} {v : β}
    {l : List (α × β)} (h : p ∈ alSet k v l) : p = (k, v) ∨ p ∈ l := by
  induction l with
  | nil => simpa [alSet] using h
  | cons hd tl ih =>
    obtain ⟨k'', v''⟩ := hd
    by_cases h2 : k = k''
    · subst h2
      simp [alSet] at h
      rcases h with h | h
      · exact Or.inl (by simp [h])
      · exact Or.inr (List.mem_cons_of_mem _ h)
    · simp [alSet, h2] at h
      rcases h with h | h
      · exact Or.inr (by simp [h])
      · rcases ih h with h3 | h3
        · exact Or.inl h3
        · exact Or.inr (List.mem_cons_of_mem _ h3)

theorem mem_alDelete {α β : Type} [DecidableEq α] {p : α × β} {k : α}
    {l : List (α × β)} (h : p ∈ alDelete k l) : p ∈ l := by
  induction l with
  | nil => simp [alDelete] at h
  | cons hd tl ih =>
    obtain ⟨k'', v''⟩ := hd
    by_cases h2 : k = k''
    · subst h2
      simp [alDelete] at h
      exact List.mem_cons_of_mem _ h
    · simp [alDelete, h2] at h
      rcases h with h | h
      · simp [h]
      · exact List.mem_cons_of_mem _ (ih h)

theorem alGet_mem {α β : Type} [DecidableEq α] {k : α} {v : β} {l : List (α × β)}
    (h : alGet k l = some v) : (k, v) ∈ l := by
  induction l with
  | nil => simp [alGet] at h
  | cons hd tl ih =>
    obtain ⟨k'', v''⟩ := hd
    by_cases h2 : k = k''
    · subst h2
      simp [alGet] at h
      simp [h]
    · simp [alGet, h2] at h
      exact List.mem_cons_of_mem _ (ih h)

theorem alKeys_alDelete_sublist {α β : Type} [DecidableEq α] (k : α) (l : List (α × β)) :
    (alKeys (alDelete k l)).Sublist (alKeys l) := by
  induction l with
  | nil => simp [alDelete, alKeys]
  | cons hd tl ih =>
    obtain ⟨k'', v''⟩ := hd
    by_cases h2 : k = k''
    · subst h2
      simp only [alDelete, if_pos rfl]
      simp only [alKeys, List.map_cons]
      exact List.sublist_cons_self _ _
    · simp only [alDelete, if_neg h2, alKeys, List.map_cons]
      exact List.Sublist.cons₂ _ ih

theorem alKeys_alSet_nodup {α β : Type} [DecidableEq α] (k : α) (v : β) {l : List (α × β)}
    (h : (alKeys l).Nodup) : (alKeys (alSet k v l)).Nodup := by
  induction l with
  | nil => simp [alSet, alKeys]
  | cons hd tl ih =>
    obtain ⟨k'', v''⟩ := hd
    simp only [alKeys, List.map_cons, List.nodup_cons] at h
    by_cases h2 : k = k''
    · subst h2
      simpa [alSet, alKeys] using h
    · simp only [alSet, if_neg h2, alKeys, List.map_cons, List.nodup_cons]
      refine ⟨fun hmem => ?_, ih h.2⟩
      rcases List.mem_map.mp hmem with ⟨p, hp, hfst⟩
      rcases mem_alSet hp with h3 | h3
      · apply h2
        rw [h3] at hfst
        simpa using hfst
      · apply h.1
        rw [← hfst]
        exact List.mem_map_of_mem Prod.fst h3

theorem alGet_alDelete_self {α β : Type} [DecidableEq α] (k : α) {l : List (α × β)}
    (h : (alKeys l).Nodup) : alGet k (alDelete k l) = none := by
  induction l with
  | nil => simp [alDelete, alGet]
  | cons hd tl ih =>
    obtain ⟨k'', v''⟩ := hd
    simp only [alKeys, List.map_cons, List.nodup_cons] at h
    by_cases h2 : k = k''
    · subst h2
      simp only [alDelete, if_pos rfl]
      cases hval : alGet k tl with
      | none => exact hval
      | some v =>
        exact absurd (List.mem_map_of_mem Prod.fst (alGet_mem hval)) h.1
    · simp only [alDelete, if_neg h2, alGet, if_neg h2]
      exact ih h.2

theorem alGet_alDelete_ne {α β : Type} [DecidableEq α] {k k' : α} (l : List (α × β))
    (h : k ≠ k') : alGet k (alDelete k' l) = alGet k l := by
  induction l with
  | nil => simp [alDelete]
  | cons hd tl ih =>
    obtain ⟨k'', v''⟩ := hd
    by_cases h2 : k' = k''
    · subst h2
      simp only [alDelete, if_pos rfl]
      simp [alGet, h]
    · by_cases h3 : k = k'' <;> simp [alDelete, alGet, h2, h3, ih]

theorem sortedB_getElem_le {l : List Listener} (h : SortedB l) {i j : Nat}
    (hij : i ≤ j) (hj : j < l.length) :
    (l.getD i junkListener).prio ≤ (l.getD j junkListener).prio := by
  have hi : i < l.length := lt_of_le_of_lt hij hj
  rw [List.getD_eq_getElem l junkListener hi, List.getD_eq_getElem l junkListener hj]
  rcases Nat.lt_or_ge i j with hlt | hge
  · exact List.pairwise_iff_getElem.mp h i j hi hj hlt
  · have : i = j := Nat.le_antisymm hij hge
    subst this
    exact le_refl _

theorem sortedB_mem_le_getLast {l : List Listener} (h : SortedB l) (hne : l ≠ [])
    {x : Listener} (hx : x ∈ l) :
    x.prio ≤ (l.getLast?.getD junkListener).prio := by
  have hlen : 0 < l.length := List.length_pos.mpr hne
  rcases List.mem_iff_getElem.mp hx with ⟨i, hi, hxe⟩
  have hlast : l.getLast?.getD junkListener = l.getD (l.length - 1) junkListener := by
    rw [List.getLast?_eq_getElem?, List.getD_eq_getElem?_getD]
  rw [hlast, ← hxe, ← List.getD_eq_getElem l junkListener hi]
  exact sortedB_getElem_le h (by omega) (by omega)

theorem sortedB_head_le_mem {a : Listener} {t : List Listener} (h : SortedB (a :: t))
    {x : Listener} (hx : x ∈ t) : a.prio ≤ x.prio :=
  (List.pairwise_cons.mp h).1 x hx

theorem lbGo_spec (list : List Listener) (p : Int) :
    ∀ gas l r, l ≤ r → r ≤ list.length → r - l ≤ gas →
    (l = 0 ∨ (list.getD (l - 1) junkListener).prio < p) →
    (r = list.length ∨ p ≤ (list.getD r junkListener).prio) →
    l ≤ lbGo list p gas l r ∧ lbGo list p gas l r ≤ r ∧
    (lbGo list p gas l r = 0 ∨ (list.getD (lbGo list p gas l r - 1) junkListener).prio < p) ∧
    (lbGo list p gas l r = list.length ∨
      p ≤ (list.getD (lbGo list p gas l r) junkListener).prio) := by
  intro gas
  induction gas with
  | zero =>
    intro l r hlr hrlen hgas hinv1 hinv2
    have : l = r := by omega
    subst this
    simp only [lbGo]
    exact ⟨le_refl _, le_refl _, hinv1, hinv2⟩
  | succ gas ih =>
    intro l r hlr hrlen hgas hinv1 hinv2
    by_cases hcond : l < r
    · simp only [lbGo, if_pos hcond]
      have hm1 : l ≤ (l + r) / 2 := by omega
      have hm2 : (l + r) / 2 < r := by omega
      by_cases hc : (list.getD ((l + r) / 2) junkListener).prio < p
      · simp only [if_pos hc]
        have spec := ih ((l + r) / 2 + 1) r (by omega) hrlen (by omega)
          (Or.inr (by simpa using hc)) hinv2
        exact ⟨le_trans (by omega) spec.1, spec.2⟩
      · simp only [if_neg hc]
        have hge : p ≤ (list.getD ((l + r) / 2) junkListener).prio := le_of_not_lt hc
        have spec := ih l ((l + r) / 2) (by omega) (by omega) (by omega)
          hinv1 (Or.inr hge)
        exact ⟨spec.1, le_trans spec.2.1 (by omega), spec.2.2⟩
    · simp only [lbGo, if_neg hcond]
      have : l = r := by omega
      subst this
      exact ⟨le_refl _, le_refl _, hinv1, hinv2⟩

theorem insertSorted_sorted {list : List Listener} {x : Listener} (h : SortedB list) :
    SortedB (insertSorted list x) := by
  by_cases h1 : list = [] ∨ (list.getLast?.getD junkListener).prio ≤ x.prio
  · rw [insertSorted, if_pos h1]
    rcases h1 with h1 | h1
    · subst h1
      simp [SortedB]
    · by_cases hemp : list = []
      · subst hemp
        simp [SortedB]
      · rw [SortedB, List.pairwise_append]
        refine ⟨h, by simp, fun a ha b hb => ?_⟩
        simp only [List.mem_singleton] at hb
        subst hb
        exact le_trans (sortedB_mem_le_getLast h hemp ha) h1
  · rw [insertSorted, if_neg h1]
    push_neg at h1
    obtain ⟨hemp, hlast⟩ := h1
    by_cases h2 : x.prio ≤ (list.headD junkListener).prio
    · rw [if_pos h2]
      obtain ⟨hd, tl, rfl⟩ := List.exists_cons_of_ne_nil hemp
      rw [SortedB, List.pairwise_cons]
      refine ⟨fun y hy => ?_, h⟩
      simp only [List.headD_cons] at h2
      rcases List.mem_cons.mp hy with hy | hy
      · subst hy; exact h2
      · exact le_trans h2 (sortedB_head_le_mem h hy)
    · rw [if_neg h2]
      have hlen : 0 < list.length := List.length_pos.mpr hemp
      have hspec := lbGo_spec list x.prio list.length 0 list.length (Nat.zero_le _)
        (le_refl _) (by omega) (Or.inl rfl) (Or.inl rfl)
      obtain ⟨-, hkr, hinv1, hinv2⟩ := hspec
      set k := lbGo list x.prio list.length 0 list.length with hkdef
      have hkk : lbLoop list x.prio = k := rfl
      rw [hkk]
      have hdropBound : ∀ y ∈ list.drop k, x.prio ≤ y.prio := by
        intro y hy
        have hklen : k < list.length := by
          by_contra hge
          have hke : k = list.length := by omega
          rw [hke, List.drop_length] at hy
          simp at hy
        have hkp : x.prio ≤ (list.getD k junkListener).prio := by
          rcases hinv2 with hke | hkp
          · omega
          · exact hkp
        rw [List.drop_eq_getElem_cons hklen] at hy
        have hPd : SortedB (list[k] :: list.drop (k + 1)) := by
          rw [← List.drop_eq_getElem_cons hklen]
          exact List.Pairwise.sublist (List.drop_sublist _ _) h
        rw [List.getD_eq_getElem list junkListener hklen] at hkp
        rcases List.mem_cons.mp hy with hy | hy
        · subst hy; exact hkp
        · exact le_trans hkp (sortedB_head_le_mem hPd hy)
      have htakeBound : ∀ a ∈ list.take k, a.prio < x.prio := by
        intro a ha
        rcases hinv1 with hke | hkp
        · rw [hke] at ha
          simp at ha
        · rcases List.mem_take_iff_getElem.mp ha with ⟨i, hm, hie⟩
          have him : i < k ∧ i < list.length := by
            constructor <;> [exact lt_of_lt_of_le hm (min_le_left _ _);
              exact lt_of_lt_of_le hm (min_le_right _ _)]
          have hbound : (list.getD i junkListener).prio ≤
              (list.getD (k - 1) junkListener).prio :=
            sortedB_getElem_le h (by omega) (by omega)
          rw [List.getD_eq_getElem list junkListener him.2, hie] at hbound
          exact lt_of_le_of_lt hbound hkp
      rw [SortedB, List.pairwise_append]
      refine ⟨List.Pairwise.sublist (List.take_sublist _ _) h, ?_, ?_⟩
      · rw [List.pairwise_cons]
        exact ⟨hdropBound, List.Pairwise.sublist (List.drop_sublist _ _) h⟩
      · intro a ha b hb
        rcases List.mem_cons.mp hb with hb | hb
        · subst hb
          exact le_of_lt (htakeBound a ha)
        · exact le_of_lt (lt_of_lt_of_le (htakeBound a ha) (hdropBound b hb))


theorem rinv_alSet {reg : List (Channel × Bucket)} {ch : Channel} {b : Bucket}
    (h : RInv reg) (hb : SortedB b.list) : RInv (alSet ch b reg) := by
  intro q hq
  rcases mem_alSet hq with hq | hq
  · rw [hq]; exact hb
  · exact h q hq

theorem rinv_alDelete {reg : List (Channel × Bucket)} {ch : Channel}
    (h : RInv reg) : RInv (alDelete ch reg) :=
  fun q hq => h q (mem_alDelete hq)

theorem regInv_iff_rinv (st : MState) : RegInv st ↔ RInv st.registry := Iff.rfl

theorem offCore_regInv {st1 : MState} {ch : Channel} {b : Bucket} {cbq : Option Nat}
    {ctx : Option Nat} (h : RInv st1.registry) (hb : SortedB b.list) :
    RegInv (offCore st1 ch b cbq ctx) := by
  rw [offCore.eq_def]
  dsimp only
  repeat' split
  all_goals
    first
      | exact rinv_alDelete h
      | exact rinv_alSet h (List.Pairwise.sublist (List.drop_sublist _ _) hb)
      | exact rinv_alSet h (List.Pairwise.sublist (List.dropLast_sublist _) hb)
      | exact rinv_alSet h (List.Pairwise.sublist (List.eraseIdx_sublist _ _) hb)
      | exact h

theorem offOp_regInv {st : MState} {ch : Channel} {cbq : Option Nat} {ctx : Option Nat}
    (h : RegInv st) : RegInv (offOp st ch cbq ctx) := by
  cases halGet : alGet ch st.registry with
  | none => simpa [offOp, halGet] using h
  | some b0 =>
    have hb0 : SortedB b0.list := h (ch, b0) (alGet_mem halGet)
    by_cases hlock : b0.locked
    · simp only [offOp, halGet, hlock, if_true]
      exact offCore_regInv (rinv_alSet h hb0) hb0
    · simp only [offOp, halGet, hlock, Bool.false_eq_true, if_false]
      exact offCore_regInv h hb0

theorem addListener_regInv {st : MState} {ch : Channel} {onceFlag : Bool} {p : Int}
    {cb : Nat} {ctx : Option Nat} {st' : MState} (h : RegInv st)
    (hok : addListener st ch onceFlag p cb ctx = Except.ok st') : RegInv st' := by
  rw [addListener] at hok
  cases halGet : alGet ch st.registry with
  | none =>
    rw [halGet] at hok
    simp only [Except.ok.injEq] at hok
    subst hok
    exact rinv_alSet h (by simp [SortedB])
  | some b =>
    rw [halGet] at hok
    have hb : SortedB b.list := h (ch, b) (alGet_mem halGet)
    by_cases hhas : b.index.has cb ctx
    · simp [hhas] at hok
    · simp only [hhas, if_neg, Bool.false_eq_true, if_false, Except.ok.injEq] at hok
      subst hok
      by_cases hlock : b.locked
      · simp only [hlock, if_true]
        exact rinv_alSet h (insertSorted_sorted hb)
      · simp only [hlock, Bool.false_eq_true, if_false]
        exact rinv_alSet h (insertSorted_sorted hb)

theorem resRegInv_dropVal {r : Res (Bool × List Entry)} (h : ResRegInv r) :
    ResRegInv (dropVal r) := by
  cases r <;> simp [dropVal, ResRegInv] at h ⊢ <;> exact h

theorem runCmdH_regInv {ec : MState → Channel → Res Unit}
    (hec : ∀ st ch, RegInv st → ResRegInv (ec st ch)) {st : MState} (c : Cmd)
    (h : RegInv st) : ResRegInv (runCmdH ec st c) := by
  cases c with
  | register ch onceFlag prio cb ctx =>
    simp only [runCmdH]
    cases hA : addListener st ch onceFlag prio cb ctx with
    | ok st' => exact addListener_regInv h hA
    | error e => exact h
  | removeAll ch => exact offOp_regInv h
  | removeOne ch cb ctx => exact offOp_regInv h
  | emitCmd ch => exact hec st ch h

theorem runCmdsH_regInv {ec : MState → Channel → Res Unit}
    (hec : ∀ st ch, RegInv st → ResRegInv (ec st ch)) :
    ∀ (cs : List Cmd) {st : MState}, RegInv st → ResRegInv (runCmdsH ec st cs) := by
  intro cs
  induction cs with
  | nil => intro st h; exact h
  | cons c cs ih =>
    intro st h
    simp only [runCmdsH]
    have hc := runCmdH_regInv hec c h
    cases hr : runCmdH ec st c with
    | ok st1 u => rw [hr] at hc; exact ih hc
    | err st1 => rw [hr] at hc; exact hc
    | oof => trivial

theorem emitLoopH_regInv {env : Env} {ec : MState → Channel → Res Unit} {ch : Channel}
    (hec : ∀ st ch, RegInv st → ResRegInv (ec st ch)) :
    ∀ (snap : List Listener) {st : MState}, RegInv st →
      ResRegInv (emitLoopH env ec ch st snap) := by
  intro snap
  induction snap with
  | nil => intro st h; exact h
  | cons x rest ih =>
    intro st h
    have h1 : RegInv { st with log := st.log ++ [mkEntry ch x] } := h
    cases hr : runCmdsH ec { st with log := st.log ++ [mkEntry ch x] }
        (env x.cb x.ctx (countInv st.log x.cb x.ctx)) with
    | ok st2 u =>
      have hcs := runCmdsH_regInv hec (env x.cb x.ctx (countInv st.log x.cb x.ctx)) h1
      rw [hr] at hcs
      have h3 : RegInv (if x.onceFlag then { st2 with called := st2.called.insert x.lid }
          else st2) := by
        by_cases ho : x.onceFlag <;> simp [ho] <;> exact hcs
      cases hrec2 : emitLoopH env ec ch (if x.onceFlag then
          { st2 with called := st2.called.insert x.lid } else st2) rest with
      | ok st4 v =>
        obtain ⟨hd, invs⟩ := v
        simp only [emitLoopH, hr, hrec2]
        have hre := ih h3
        rw [hrec2] at hre
        exact hre
      | err st4 =>
        simp only [emitLoopH, hr, hrec2]
        have hre := ih h3
        rw [hrec2] at hre
        exact hre
      | oof => simp only [emitLoopH, hr, hrec2]; trivial
    | err st2 =>
      have hcs := runCmdsH_regInv hec (env x.cb x.ctx (countInv st.log x.cb x.ctx)) h1
      rw [hr] at hcs
      simp only [emitLoopH, hr]
      exact hcs
    | oof => simp only [emitLoopH, hr]; trivial

theorem emitCompact_regInv {st2 : MState} {ch : Channel} {b3 : Bucket} {hasDel : Bool}
    {invs : List Entry} (h : RegInv st2) (hb3 : SortedB b3.list) :
    ResRegInv (emitCompact st2 ch b3 hasDel invs) := by
  rw [emitCompact]
  dsimp only
  have h3 : RInv (alSet ch b3 st2.registry) := rinv_alSet h hb3
  split
  · split
    · exact rinv_alDelete h3
    · exact rinv_alSet h3 (List.Pairwise.sublist (List.filter_sublist _) hb3)
  · exact h3

theorem emitFinish_regInv {st2 : MState} {ch : Channel} {snapId : Nat} {hasDel : Bool}
    {invs : List Entry} (h : RegInv st2) :
    ResRegInv (emitFinish st2 ch snapId hasDel invs) := by
  cases hg : alGet ch st2.registry with
  | none => simp only [emitFinish, hg]; exact h
  | some b2 =>
    have hb2 : SortedB b2.list := h (ch, b2) (alGet_mem hg)
    simp only [emitFinish, hg]
    apply emitCompact_regInv h
    by_cases harr : b2.arrId = snapId
    · rw [if_pos harr]; exact hb2
    · rw [if_neg harr]; exact hb2

theorem runEmitH_regInv {env : Env} {ec : MState → Channel → Res Unit}
    (hec : ∀ st ch, RegInv st → ResRegInv (ec st ch)) {st : MState} {ch : Channel}
    (h : RegInv st) : ResRegInv (runEmitH env ec st ch) := by
  cases hb : alGet ch st.registry with
  | none => simp only [runEmitH, hb]; exact h
  | some b =>
    have hbs : SortedB b.list := h (ch, b) (alGet_mem hb)
    by_cases hemp : b.list = []
    · simp only [runEmitH, hb, if_pos hemp]; exact h
    · simp only [runEmitH, hb, if_neg hemp]
      have h1 : RegInv (if b.locked then
          { st with
            fresh := st.fresh + 1,
            registry := alSet ch { b with arrId := st.fresh } st.registry }
          else { st with registry := alSet ch { b with locked := true } st.registry }) := by
        by_cases hl : b.locked <;> simp only [hl, if_true, Bool.false_eq_true, if_false] <;>
          exact rinv_alSet h hbs
      have hloopInv := @emitLoopH_regInv env ec ch hec b.list _ h1
      cases hloop : emitLoopH env ec ch (if b.locked then
          { st with
            fresh := st.fresh + 1,
            registry := alSet ch { b with arrId := st.fresh } st.registry }
          else { st with registry := alSet ch { b with locked := true } st.registry }) b.list with
      | ok st2 v =>
        obtain ⟨hasDel, invs⟩ := v
        rw [hloop] at hloopInv
        simp only [hloop]
        exact emitFinish_regInv hloopInv
      | err st2 =>
        rw [hloop] at hloopInv
        simp only [hloop]
        exact hloopInv
      | oof => simp only [hloop]; trivial

theorem runEmit_regInv : ∀ (fuel : Nat) (env : Env) (st : MState) (ch : Channel),
    RegInv st → ResRegInv (runEmit fuel env st ch) := by
  intro fuel
  induction fuel with
  | zero =>
    intro env st ch h
    simp only [runEmit]
    refine runEmitH_regInv ?_ h
    intro st1 ch1 h1
    exact trivial
  | succ fuel ih =>
    intro env st ch h
    simp only [runEmit]
    refine runEmitH_regInv ?_ h
    intro st1 ch1 h1
    exact resRegInv_dropVal (ih env st1 ch1 h1)

theorem emitLoopH_ok_invs {env : Env} {ec : MState → Channel → Res Unit} {ch : Channel} :
    ∀ (snap : List Listener) (st st4 : MState) (hd : Bool) (invs : List Entry),
      emitLoopH env ec ch st snap = Res.ok st4 (hd, invs) →
      invs = snap.map (mkEntry ch) := by
  intro snap
  induction snap with
  | nil =>
    intro st st4 hd invs h
    simp only [emitLoopH, Res.ok.injEq, Prod.mk.injEq] at h
    exact h.2.2.symm
  | cons x rest ih =>
    intro st st4 hd invs h
    simp only [emitLoopH] at h
    cases hr : runCmdsH ec { st with log := st.log ++ [mkEntry ch x] }
        (env x.cb x.ctx (countInv st.log x.cb x.ctx)) with
    | ok st2 u =>
      rw [hr] at h
      dsimp only at h
      cases hrec : emitLoopH env ec ch (if x.onceFlag then
          { st2 with called := st2.called.insert x.lid } else st2) rest with
      | ok st5 v =>
        obtain ⟨hd2, invs2⟩ := v
        rw [hrec] at h
        simp only [Res.ok.injEq, Prod.mk.injEq] at h
        rw [← h.2.2, ih _ _ _ _ hrec]
        simp
      | err st5 => rw [hrec] at h; cases h
      | oof => rw [hrec] at h; cases h
    | err st2 => rw [hr] at h; dsimp only at h; cases h
    | oof => rw [hr] at h; dsimp only at h; cases h

theorem emitLoopH_inert {env : Env} {ec : MState → Channel → Res Unit} {ch : Channel}
    (hinert : EnvInert env) :
    ∀ (snap : List Listener) (st : MState),
      emitLoopH env ec ch st snap =
        Res.ok { st with
          called := markAll st.called snap,
          log := st.log ++ snap.map (mkEntry ch) }
          (snap.any (fun x => x.onceFlag), snap.map (mkEntry ch)) := by
  intro snap
  induction snap with
  | nil => intro st; simp [emitLoopH, markAll]
  | cons x rest ih =>
    intro st
    have he := hinert x.cb x.ctx (countInv st.log x.cb x.ctx)
    simp only [emitLoopH, he, runCmdsH]
    rw [ih]
    by_cases ho : x.onceFlag
    · simp [ho, markAll, Bool.or_comm]
    · simp [ho, markAll]

theorem runEmitH_inert {env : Env} {ec : MState → Channel → Res Unit}
    (hinert : EnvInert env) (st : MState) (ch : Channel) :
    runEmitH env ec st ch = plainStep st ch := by
  cases hb : alGet ch st.registry with
  | none => simp [runEmitH, plainStep, hb]
  | some b =>
    by_cases hemp : b.list = []
    · simp [runEmitH, plainStep, hb, hemp]
    · simp only [runEmitH, plainStep, hb, if_neg hemp]
      rw [emitLoopH_inert hinert]
      by_cases hlock : b.locked
      · simp only [hlock, if_true]
        simp only [emitFinish, alGet_alSet_self]
        simp [emitCompact]
      · simp only [hlock, Bool.false_eq_true, if_false]
        simp only [emitFinish, alGet_alSet_self]
        simp [emitCompact]

theorem runEmit_inert {env : Env} (hinert : EnvInert env) (fuel : Nat) (st : MState)
    (ch : Channel) : runEmit fuel env st ch = plainStep st ch := by
  cases fuel with
  | zero => simp only [runEmit]; exact runEmitH_inert hinert st ch
  | succ fuel => simp only [runEmit]; exact runEmitH_inert hinert st ch

theorem runEmit_eq_runEmitH (fuel : Nat) (env : Env) (st : MState) (ch : Channel) :
    runEmit fuel env st ch = runEmitH env (nestCall fuel env) st ch := by
  cases fuel <;> rfl

theorem emitCompact_ok_invs {st2 : MState} {ch : Channel} {b3 : Bucket} {hasDel : Bool}
    {invs : List Entry} {st' : MState} {r : Bool} {invs2 : List Entry}
    (h : emitCompact st2 ch b3 hasDel invs = Res.ok st' (r, invs2)) : invs2 = invs := by
  rw [emitCompact] at h
  dsimp only at h
  split at h
  · split at h
    · simp only [Res.ok.injEq, Prod.mk.injEq] at h
      exact h.2.2.symm
    · simp only [Res.ok.injEq, Prod.mk.injEq] at h
      exact h.2.2.symm
  · simp only [Res.ok.injEq, Prod.mk.injEq] at h
    exact h.2.2.symm

theorem emitFinish_ok_invs {st2 : MState} {ch : Channel} {snapId : Nat} {hasDel : Bool}
    {invs : List Entry} {st' : MState} {r : Bool} {invs2 : List Entry}
    (h : emitFinish st2 ch snapId hasDel invs = Res.ok st' (r, invs2)) : invs2 = invs := by
  rw [emitFinish.eq_def] at h
  split at h
  · simp only [Res.ok.injEq, Prod.mk.injEq] at h
    exact h.2.2.symm
  · exact emitCompact_ok_invs h

theorem runEmitH_ok_order {env : Env} {ec : MState → Channel → Res Unit} {st : MState}
    {ch : Channel} {st' : MState} {r : Bool} {invs : List Entry} (hInv : RegInv st)
    (hrun : runEmitH env ec st ch = Res.ok st' (r, invs)) :
    List.Pairwise (fun a b : Entry => a.prio ≤ b.prio) invs := by
  cases hb : alGet ch st.registry with
  | none =>
    simp only [runEmitH, hb, Res.ok.injEq, Prod.mk.injEq] at hrun
    rw [← hrun.2.2]
    exact List.Pairwise.nil
  | some b =>
    by_cases hemp : b.list = []
    · simp only [runEmitH, hb, if_pos hemp, Res.ok.injEq, Prod.mk.injEq] at hrun
      rw [← hrun.2.2]
      exact List.Pairwise.nil
    · simp only [runEmitH, hb, if_neg hemp] at hrun
      cases hloop : emitLoopH env ec ch (if b.locked then
          { st with
            fresh := st.fresh + 1,
            registry := alSet ch { b with arrId := st.fresh } st.registry }
          else { st with registry := alSet ch { b with locked := true } st.registry }) b.list with
      | ok st2 v =>
        obtain ⟨hasDel, invs1⟩ := v
        rw [hloop] at hrun
        dsimp only at hrun
        have hinv1 : invs1 = b.list.map (mkEntry ch) := emitLoopH_ok_invs _ _ _ _ _ hloop
        have hinvs : invs = invs1 := emitFinish_ok_invs hrun
        rw [hinvs, hinv1]
        have hsort : SortedB b.list := hInv (ch, b) (alGet_mem hb)
        exact List.pairwise_map.mpr hsort
      | err st2 => rw [hloop] at hrun; cases hrun
      | oof => rw [hloop] at hrun; cases hrun

/-- C1: for every channel, the bucket's listener sequence is always sorted
in ascending priority order — an invariant preserved by `register`
(`addListener`), by `remove` (`off`) and by `emit`, whose post-emission
compaction is included in the `runEmit` preservation — and consequently
every completed `emit` call invokes the listeners present at the start of
its iteration in non-decreasing priority order. -/
theorem C1_sorted_buckets_and_ordered_emit :
    (∀ (st : MState) (ch : Channel) (onceFlag : Bool) (p : Int) (cb : Nat)
        (ctx : Option Nat) (st' : MState), RegInv st →
        addListener st ch onceFlag p cb ctx = Except.ok st' → RegInv st') ∧
    (∀ (st : MState) (ch : Channel) (cbq ctx : Option Nat), RegInv st →
        RegInv (offOp st ch cbq ctx)) ∧
    (∀ (fuel : Nat) (env : Env) (st : MState) (ch : Channel), RegInv st →
        ResRegInv (runEmit fuel env st ch)) ∧
    (∀ (fuel : Nat) (env : Env) (st : MState) (ch : Channel) (st' : MState) (r : Bool)
        (invs : List Entry), RegInv st → runEmit fuel env st ch = Res.ok st' (r, invs) →
        List.Pairwise (fun a b : Entry => a.prio ≤ b.prio) invs) := by
  refine ⟨?_, ?_, ?_, ?_⟩
  · intro st ch onceFlag p cb ctx st' h hok
    exact addListener_regInv h hok
  · intro st ch cbq ctx h
    exact offOp_regInv h
  · intro fuel env st ch h
    exact runEmit_regInv fuel env st ch h
  · intro fuel env st ch st' r invs h hrun
    rw [runEmit_eq_runEmitH] at hrun
    exact runEmitH_ok_order h hrun

/-- Witness for C1 at a concrete input: emitting on a bucket holding
priorities 10 and 50 yields invocations in non-decreasing priority
order. -/
theorem C1_sorted_buckets_and_ordered_emit_witness :
    List.Pairwise (fun a b : Entry => a.prio ≤ b.prio)
      [⟨chX, 2, none, 10⟩, ⟨chX, 1, none, 50⟩] :=
  C1_sorted_buckets_and_ordered_emit.2.2.2 1 envNil stW chX
    { stW with log := [⟨chX, 2, none, 10⟩, ⟨chX, 1, none, 50⟩] } true
    [⟨chX, 2, none, 10⟩, ⟨chX, 1, none, 50⟩] (by decide) (by decide)

theorem alGet_of_mem_nodup {α β : Type} [DecidableEq α] {k : α} {v : β}
    {l : List (α × β)} (hmem : (k, v) ∈ l) (hnd : (alKeys l).Nodup) :
    alGet k l = some v := by
  induction l with
  | nil => simp at hmem
  | cons hd tl ih =>
    obtain ⟨k'', v''⟩ := hd
    simp only [alKeys, List.map_cons, List.nodup_cons] at hnd
    rcases List.mem_cons.mp hmem with heq | hmem2
    · injection heq with hk hv
      subst hk
      subst hv
      simp [alGet]
    · have hne : k ≠ k'' := by
        intro he
        subst he
        exact hnd.1 (List.mem_map_of_mem Prod.fst hmem2)
      simp only [alGet, if_neg hne]
      exact ih hmem2 hnd.2

theorem alGet_append {α β : Type} [DecidableEq α] (k : α) (l1 l2 : List (α × β)) :
    alGet k (l1 ++ l2) =
      (match alGet k l1 with
      | some v => some v
      | none => alGet k l2) := by
  induction l1 with
  | nil => simp [alGet]
  | cons hd tl ih =>
    obtain ⟨k'', v''⟩ := hd
    by_cases h2 : k = k'' <;> simp [alGet, h2, ih]

theorem index_has_init_self (cb : Nat) (ctx : Option Nat) (p : Int) :
    (Index.init cb ctx p).has cb ctx = true := by
  cases ctx <;> simp [Index.init, Index.has, alGet]

theorem index_has_insert_self (idx : Index) (cb : Nat) (ctx : Option Nat) (p : Int) :
    (idx.insert cb ctx p).has cb ctx = true := by
  cases ctx with
  | none =>
    simp only [Index.insert, Index.has]
    cases hg : alGet cb idx.noCtx with
    | some v => simp [Index.has, hg]
    | none => simp [Index.has, alGet_append, hg, alGet]
  | some c =>
    simp only [Index.insert, Index.has]
    cases hg : alGet c idx.ctxMap with
    | none => simp [Index.has, alGet_append, hg, alGet]
    | some m =>
      cases hg2 : alGet cb m with
      | some v => simp [Index.has, hg, hg2]
      | none => simp [Index.has, alGet_alSet_self, alGet_append, hg2, alGet]

theorem index_has_insert_ne (idx : Index) {cb1 cb2 : Nat} {ctx1 ctx2 : Option Nat}
    (p : Int) (hne : ¬(cb1 = cb2 ∧ ctx1 = ctx2)) :
    (idx.insert cb1 ctx1 p).has cb2 ctx2 = idx.has cb2 ctx2 := by
  cases ctx1 with
  | none =>
    cases hg : alGet cb1 idx.noCtx with
    | some v => simp [Index.insert, hg]
    | none =>
      cases ctx2 with
      | none =>
        have hcb : cb2 ≠ cb1 := fun he => hne ⟨he.symm, rfl⟩
        simp only [Index.insert, hg, Index.has, alGet_append]
        cases hg2 : alGet cb2 idx.noCtx with
        | some v => rfl
        | none => simp [alGet, hcb]
      | some c2 => simp [Index.insert, hg, Index.has]
  | some c1 =>
    cases hg : alGet c1 idx.ctxMap with
    | none =>
      cases ctx2 with
      | none => simp [Index.insert, hg, Index.has]
      | some c2 =>
        by_cases hc : c2 = c1
        · subst hc
          have hcb : cb2 ≠ cb1 := fun he => hne ⟨he.symm, rfl⟩
          simp only [Index.insert, hg, Index.has, alGet_append]
          simp [alGet, hcb, hg]
        · simp only [Index.insert, hg, Index.has, alGet_append]
          cases hg2 : alGet c2 idx.ctxMap with
          | some m => rfl
          | none => simp [alGet, hc]
    | some m =>
      cases hg2 : alGet cb1 m with
      | some v => simp [Index.insert, hg, hg2]
      | none =>
        cases ctx2 with
        | none => simp [Index.insert, hg, hg2, Index.has]
        | some c2 =>
          by_cases hc : c2 = c1
          · subst hc
            have hcb : cb2 ≠ cb1 := fun he => hne ⟨he.symm, rfl⟩
            simp only [Index.insert, hg, hg2, Index.has, alGet_alSet_self, alGet_append]
            cases hg3 : alGet cb2 m with
            | some v => rfl
            | none => simp [alGet, hcb]
          · simp only [Index.insert, hg, hg2, Index.has, alGet_alSet_ne _ _ hc]

theorem index_has_remove_self {idx : Index} (wf : IndexWF idx) (cb : Nat)
    (ctx : Option Nat) : (idx.remove cb ctx).has cb ctx = false := by
  cases ctx with
  | none => simp [Index.remove, Index.has, alGet_alDelete_self cb wf.1]
  | some c =>
    cases hg : alGet c idx.ctxMap with
    | none => simp [Index.remove, hg, Index.has]
    | some m =>
      by_cases hm : alDelete cb m = []
      · simp only [Index.remove, hg, hm, if_pos rfl, Index.has]
        simp [alGet_alDelete_self c wf.2.1]
      · simp only [Index.remove, hg, Index.has, if_neg hm]
        simp only [alGet_alSet_self]
        have hmm : (c, m) ∈ idx.ctxMap := alGet_mem hg
        simp [alGet_alDelete_self cb (wf.2.2 (c, m) hmm)]

theorem index_has_remove_other {idx : Index} (wf : IndexWF idx) {cb1 cb2 : Nat}
    {ctx1 ctx2 : Option Nat} (hne : ¬(cb1 = cb2 ∧ ctx1 = ctx2)) :
    (idx.remove cb1 ctx1).has cb2 ctx2 = idx.has cb2 ctx2 := by
  cases ctx1 with
  | none =>
    cases ctx2 with
    | none =>
      have hcb : cb2 ≠ cb1 := fun he => hne ⟨he.symm, rfl⟩
      simp [Index.remove, Index.has, alGet_alDelete_ne _ hcb]
    | some c2 => simp [Index.remove, Index.has]
  | some c1 =>
    cases hg : alGet c1 idx.ctxMap with
    | none => simp [Index.remove, hg]
    | some m =>
      by_cases hm : alDelete cb1 m = []
      · simp only [Index.remove, hg, if_pos hm]
        cases ctx2 with
        | none => simp [Index.has]
        | some c2 =>
          by_cases hc : c2 = c1
          · subst hc
            have hcb : cb2 ≠ cb1 := fun he => hne ⟨he.symm, rfl⟩
            simp only [Index.has, hg]
            have hsingle : alGet cb2 m = none := by
              cases m with
              | nil => simp [alGet]
              | cons hd tl =>
                obtain ⟨k'', v''⟩ := hd
                by_cases hk : cb1 = k''
                · subst hk
                  simp only [alDelete, if_pos rfl] at hm
                  subst hm
                  simp [alGet, hcb]
                · exfalso
                  simp only [alDelete, if_neg hk] at hm
                  exact List.cons_ne_nil _ _ hm
            rw [alGet_alDelete_self c2 wf.2.1]
            simp [hsingle]
          · simp [Index.has, alGet_alDelete_ne _ hc]
      · simp only [Index.remove, hg, if_neg hm]
        cases ctx2 with
        | none => simp [Index.has]
        | some c2 =>
          by_cases hc : c2 = c1
          · subst hc
            have hcb : cb2 ≠ cb1 := fun he => hne ⟨he.symm, rfl⟩
            simp only [Index.has, alGet_alSet_self, hg]
            rw [alGet_alDelete_ne _ hcb]
          · simp [Index.has, alGet_alSet_ne _ _ hc]

theorem indexWF_remove {idx : Index} (wf : IndexWF idx) (cb : Nat) (ctx : Option Nat) :
    IndexWF (idx.remove cb ctx) := by
  cases ctx with
  | none =>
    refine ⟨?_, wf.2.1, wf.2.2⟩
    exact (alKeys_alDelete_sublist cb idx.noCtx).nodup wf.1
  | some c =>
    cases hg : alGet c idx.ctxMap with
    | none => simpa [Index.remove, hg] using wf
    | some m =>
      by_cases hm : alDelete cb m = []
      · simp only [Index.remove, hg, hm, if_pos rfl]
        refine ⟨wf.1, (alKeys_alDelete_sublist c idx.ctxMap).nodup wf.2.1, ?_⟩
        intro q hq
        exact wf.2.2 q (mem_alDelete hq)
      · simp only [Index.remove, hg, if_neg hm]
        refine ⟨wf.1, alKeys_alSet_nodup c _ wf.2.1, ?_⟩
        intro q hq
        rcases mem_alSet hq with hq | hq
        · subst hq
          exact (alKeys_alDelete_sublist cb m).nodup (wf.2.2 (c, m) (alGet_mem hg))
        · exact wf.2.2 q hq

theorem foldRemove_wf {rem : List Listener} :
    ∀ {idx : Index}, IndexWF idx →
      IndexWF (rem.foldl (fun acc x => acc.remove x.cb x.ctx) idx) := by
  induction rem with
  | nil => intro idx wf; exact wf
  | cons y rest ih =>
    intro idx wf
    simp only [List.foldl_cons]
    exact ih (indexWF_remove wf y.cb y.ctx)

theorem foldRemove_has_false {cb : Nat} {ctx : Option Nat} {rem : List Listener} :
    ∀ {idx : Index}, IndexWF idx →
      ((∃ x ∈ rem, x.cb = cb ∧ x.ctx = ctx) ∨ idx.has cb ctx = false) →
      (rem.foldl (fun acc x => acc.remove x.cb x.ctx) idx).has cb ctx = false := by
  induction rem with
  | nil =>
    intro idx wf h
    rcases h with ⟨x, hx, -⟩ | h
    · simp at hx
    · exact h
  | cons y rest ih =>
    intro idx wf h
    simp only [List.foldl_cons]
    by_cases hy : y.cb = cb ∧ y.ctx = ctx
    · refine ih (indexWF_remove wf y.cb y.ctx) (Or.inr ?_)
      rw [hy.1, hy.2]
      exact index_has_remove_self wf cb ctx
    · rcases h with ⟨x, hx, hp⟩ | hfalse
      · rcases List.mem_cons.mp hx with hx | hx
        · exact absurd (hx ▸ hp) hy
        · exact ih (indexWF_remove wf y.cb y.ctx) (Or.inl ⟨x, hx, hp⟩)
      · refine ih (indexWF_remove wf y.cb y.ctx) (Or.inr ?_)
        rw [index_has_remove_other wf hy]
        exact hfalse

theorem index_has_init_ne {cb1 cb2 : Nat} {ctx1 ctx2 : Option Nat} (p : Int)
    (hne : ¬(cb1 = cb2 ∧ ctx1 = ctx2)) :
    (Index.init cb1 ctx1 p).has cb2 ctx2 = false := by
  cases ctx1 with
  | none =>
    cases ctx2 with
    | none =>
      have hcb : cb2 ≠ cb1 := fun he => hne ⟨he.symm, rfl⟩
      simp [Index.init, Index.has, alGet, hcb]
    | some c2 => simp [Index.init, Index.has, alGet]
  | some c1 =>
    cases ctx2 with
    | none => simp [Index.init, Index.has, alGet]
    | some c2 =>
      by_cases hc : c2 = c1
      · subst hc
        have hcb : cb2 ≠ cb1 := fun he => hne ⟨he.symm, rfl⟩
        simp [Index.init, Index.has, alGet, hcb]
      · simp [Index.init, Index.has, alGet, hc]

theorem addListener_ok_has {st : MState} {ch : Channel} {o : Bool} {p : Int} {cb : Nat}
    {ctx : Option Nat} {st' : MState} (h : addListener st ch o p cb ctx = Except.ok st') :
    ∃ b', alGet ch st'.registry = some b' ∧ b'.index.has cb ctx = true := by
  rw [addListener] at h
  cases hg : alGet ch st.registry with
  | none =>
    rw [hg] at h
    simp only [Except.ok.injEq] at h
    subst h
    exact ⟨_, alGet_alSet_self _ _ _, index_has_init_self cb ctx p⟩
  | some b =>
    rw [hg] at h
    by_cases hhas : b.index.has cb ctx
    · simp [hhas] at h
    · simp only [hhas, Bool.false_eq_true, if_false, Except.ok.injEq] at h
      subst h
      by_cases hlock : b.locked
      · simp only [hlock, if_true]
        exact ⟨_, alGet_alSet_self _ _ _, index_has_insert_self b.index cb ctx p⟩
      · simp only [hlock, Bool.false_eq_true, if_false]
        exact ⟨_, alGet_alSet_self _ _ _, index_has_insert_self b.index cb ctx p⟩

theorem addListener_dup_error {st : MState} {ch : Channel} {o : Bool} {p : Int}
    {cb : Nat} {ctx : Option Nat} {b : Bucket} (hg : alGet ch st.registry = some b)
    (hhas : b.index.has cb ctx = true) :
    addListener st ch o p cb ctx = Except.error EvError.duplicateListener := by
  rw [addListener, hg]
  simp [hhas]

theorem addListener_ok_of_not_has {st : MState} {ch : Channel} (o : Bool) (p : Int)
    (cb : Nat) (ctx : Option Nat)
    (h : ∀ b, alGet ch st.registry = some b → b.index.has cb ctx = false) :
    ∃ st2, addListener st ch o p cb ctx = Except.ok st2 := by
  cases hg : alGet ch st.registry with
  | none =>
    rw [addListener, hg]
    exact ⟨_, rfl⟩
  | some b =>
    rw [addListener, hg]
    dsimp only
    rw [h b hg]
    simp only [Bool.false_eq_true, if_false]
    exact ⟨_, rfl⟩

theorem addListener_ok_index {st : MState} {ch : Channel} {o : Bool} {p : Int} {cb : Nat}
    {ctx : Option Nat} {st' : MState} (h : addListener st ch o p cb ctx = Except.ok st') :
    ∃ b', alGet ch st'.registry = some b' ∧
      ((alGet ch st.registry = none ∧ b'.index = Index.init cb ctx p) ∨
        (∃ b, alGet ch st.registry = some b ∧ b'.index = b.index.insert cb ctx p)) := by
  rw [addListener] at h
  cases hg : alGet ch st.registry with
  | none =>
    rw [hg] at h
    simp only [Except.ok.injEq] at h
    subst h
    exact ⟨_, alGet_alSet_self _ _ _, Or.inl ⟨rfl, rfl⟩⟩
  | some b =>
    rw [hg] at h
    by_cases hhas : b.index.has cb ctx
    · simp [hhas] at h
    · simp only [hhas, Bool.false_eq_true, if_false, Except.ok.injEq] at h
      subst h
      by_cases hlock : b.locked
      · simp only [hlock, if_true]
        exact ⟨_, alGet_alSet_self _ _ _, Or.inr ⟨b, rfl, rfl⟩⟩
      · simp only [hlock, Bool.false_eq_true, if_false]
        exact ⟨_, alGet_alSet_self _ _ _, Or.inr ⟨b, rfl, rfl⟩⟩

/-- C3: registering a `(callback, context)` pair that is already registered
on the same channel raises `DuplicateListenerError`, whatever the new
priority or `once` flag; and registering the same callback under two
reference-distinct contexts (including one with and one without a
context) never raises. -/
theorem C3_duplicate_rejection :
    (∀ (st st' : MState) (ch : Channel) (o1 : Bool) (p1 : Int) (cb : Nat)
        (ctx : Option Nat), addListener st ch o1 p1 cb ctx = Except.ok st' →
        ∀ (o2 : Bool) (p2 : Int),
          addListener st' ch o2 p2 cb ctx = Except.error EvError.duplicateListener) ∧
    (∀ (st st' : MState) (ch : Channel) (o1 : Bool) (p1 : Int) (cb : Nat)
        (ctx1 ctx2 : Option Nat), ctx1 ≠ ctx2 →
        (∀ b, alGet ch st.registry = some b → b.index.has cb ctx2 = false) →
        addListener st ch o1 p1 cb ctx1 = Except.ok st' →
        ∀ (o2 : Bool) (p2 : Int), ∃ st2,
          addListener st' ch o2 p2 cb ctx2 = Except.ok st2) := by
  constructor
  · intro st st' ch o1 p1 cb ctx hok o2 p2
    obtain ⟨b', hb', hhas⟩ := addListener_ok_has hok
    exact addListener_dup_error hb' hhas
  · intro st st' ch o1 p1 cb ctx1 ctx2 hctx hfree hok o2 p2
    apply addListener_ok_of_not_has
    intro b' hb'
    obtain ⟨b'', hb'', hcase⟩ := addListener_ok_index hok
    rw [hb'] at hb''
    injection hb'' with hbe
    subst hbe
    rcases hcase with ⟨hnone, hidx⟩ | ⟨b0, hsome, hidx⟩
    · rw [hidx]
      exact index_has_init_ne p1 (fun hpair => hctx hpair.2)
    · rw [hidx]
      rw [index_has_insert_ne b0.index p1 (fun hpair => hctx hpair.2)]
      exact hfree b0 hsome

/-- Witness for C3 at a concrete input: after registering callback 5 with
no context on channel `chX`, registering the same pair again with a
different priority and `once` flag raises the duplicate error. -/
theorem C3_duplicate_rejection_witness :
    addListener
      { registry := [(chX,
          { arrId := 0
            list := [⟨1, 5, none, 0, false⟩]
            locked := false
            index := ⟨[], [(5, 0)]⟩ })]
        fresh := 2, called := [], log := [] } chX true 7 5 none =
      Except.error EvError.duplicateListener :=
  C3_duplicate_rejection.1 MState.empty _ chX false 0 5 none (by decide) true 7

/-- C4 (code-bug evidence): with two listeners registered on a channel,
removing one via `off` deletes it from the sequence but not from the
duplicate index, so re-registering the removed `(callback, context)` pair
raises `DuplicateListenerError` even though the listener is gone. The
claim (and the spec's intent, matched by the remove-all and compaction
paths, which do purge the index) is that re-registration succeeds. -/
theorem C4_remove_leaves_duplicate_index_entry :
    addListener MState.empty chX false 0 1 none = Except.ok
      { registry := [(chX,
          { arrId := 0
            list := [⟨1, 1, none, 0, false⟩]
            locked := false
            index := ⟨[], [(1, 0)]⟩ })]
        fresh := 2, called := [], log := [] } ∧
    addListener
      { registry := [(chX,
          { arrId := 0
            list := [⟨1, 1, none, 0, false⟩]
            locked := false
            index := ⟨[], [(1, 0)]⟩ })]
        fresh := 2, called := [], log := [] } chX false 0 2 none = Except.ok
      { registry := [(chX,
          { arrId := 0
            list := [⟨1, 1, none, 0, false⟩, ⟨2, 2, none, 0, false⟩]
            locked := false
            index := ⟨[], [(1, 0), (2, 0)]⟩ })]
        fresh := 3, called := [], log := [] } ∧
    offOp
      { registry := [(chX,
          { arrId := 0
            list := [⟨1, 1, none, 0, false⟩, ⟨2, 2, none, 0, false⟩]
            locked := false
            index := ⟨[], [(1, 0), (2, 0)]⟩ })]
        fresh := 3, called := [], log := [] } chX (some 1) none =
      { registry := [(chX,
          { arrId := 0
            list := [⟨2, 2, none, 0, false⟩]
            locked := false
            index := ⟨[], [(1, 0), (2, 0)]⟩ })]
        fresh := 3, called := [], log := [] } ∧
    addListener
      { registry := [(chX,
          { arrId := 0
            list := [⟨2, 2, none, 0, false⟩]
            locked := false
            index := ⟨[], [(1, 0), (2, 0)]⟩ })]
        fresh := 3, called := [], log := [] } chX false 0 1 none =
      Except.error EvError.duplicateListener := by
  refine ⟨by decide, by decide, by decide, by decide⟩

/-- C5 (counterexample): registering callbacks 1 at priority 0, 2 at
priority 5, then 3 at priority 0 yields the sequence 3, 1, 2 — the newly
registered equal-priority record is placed before the already-present
record with the same priority, not after it. -/
theorem C5_counterexample_prepend_on_tie :
    ((addListener MState.empty chX false 0 1 none).bind (fun st1 =>
      (addListener st1 chX false 5 2 none).bind (fun st2 =>
        addListener st2 chX false 0 3 none))).map
      (fun st3 => (alGet chX st3.registry).map (fun b => b.list.map (fun x => x.cb))) =
      Except.ok (some [3, 1, 2]) := by decide

theorem lbLoop_take_lt {list : List Listener} (p : Int) (h : SortedB list) :
    ∀ a ∈ list.take (lbLoop list p), a.prio < p := by
  have hspec := lbGo_spec list p list.length 0 list.length (Nat.zero_le _)
    (le_refl _) (by omega) (Or.inl rfl) (Or.inl rfl)
  obtain ⟨-, hkr, hinv1, -⟩ := hspec
  have hkk : lbGo list p list.length 0 list.length = lbLoop list p := rfl
  rw [hkk] at hkr hinv1
  intro a ha
  rcases hinv1 with hke | hkp
  · rw [hke] at ha
    simp at ha
  · rcases List.mem_take_iff_getElem.mp ha with ⟨i, hm, hie⟩
    have him : i < lbLoop list p ∧ i < list.length := by
      constructor <;> [exact lt_of_lt_of_le hm (min_le_left _ _);
        exact lt_of_lt_of_le hm (min_le_right _ _)]
    have hbound : (list.getD i junkListener).prio ≤
        (list.getD (lbLoop list p - 1) junkListener).prio :=
      sortedB_getElem_le h (by have := him.1; omega)
        (by have := him.1; have := hkr; omega)
    rw [List.getD_eq_getElem list junkListener him.2, hie] at hbound
    exact lt_of_le_of_lt hbound hkp

/-- C5 (amended): a newly registered record whose priority is not below
the last record's priority — in particular any insertion into an
all-equal-priority bucket — is appended after every existing record; in
every other case (the prepend fast path or the lower-bound binary search)
the new record is placed before every already-present record of the same
priority, so equal-priority ties are not in insertion order in general. -/
theorem C5_amended_tie_break_position {list : List Listener} {x : Listener}
    (h : SortedB list) :
    ((list = [] ∨ (list.getLast?.getD junkListener).prio ≤ x.prio) →
      insertSorted list x = list ++ [x]) ∧
    (¬(list = [] ∨ (list.getLast?.getD junkListener).prio ≤ x.prio) →
      ∃ A B, insertSorted list x = A ++ x :: B ∧ ∀ a ∈ A, a.prio < x.prio) := by
  constructor
  · intro h1
    rw [insertSorted, if_pos h1]
  · intro h1
    rw [insertSorted, if_neg h1]
    by_cases h2 : x.prio ≤ (list.headD junkListener).prio
    · rw [if_pos h2]
      exact ⟨[], list, rfl, by simp⟩
    · rw [if_neg h2]
      exact ⟨list.take (lbLoop list x.prio), list.drop (lbLoop list x.prio), rfl,
        lbLoop_take_lt x.prio h⟩

/-- Witness for the amended C5 at a concrete input: inserting a record of
priority 0 into a bucket holding priorities 0 and 5 lands before the
existing priority-0 record. -/
theorem C5_amended_tie_break_position_witness :
    ∃ A B, insertSorted [⟨1, 1, none, 0, false⟩, ⟨2, 2, none, 5, false⟩]
        ⟨3, 3, none, 0, false⟩ = A ++ ⟨3, 3, none, 0, false⟩ :: B ∧
      ∀ a ∈ A, a.prio < (⟨3, 3, none, 0, false⟩ : Listener).prio :=
  (C5_amended_tie_break_position (by decide)).2 (by decide)

theorem scanGo_none {list : List Listener} {cb : Nat} {ctx : Option Nat}
    (habs : ∀ x ∈ list, ¬(x.cb = cb ∧ x.ctx = ctx)) :
    ∀ (gas i stop : Nat), stop ≤ list.length → scanGo list cb ctx gas i stop = none := by
  intro gas
  induction gas with
  | zero => intro i stop hstop; rfl
  | succ gas ih =>
    intro i stop hstop
    simp only [scanGo]
    by_cases hi : i < stop
    · rw [if_pos hi]
      have hin : i < list.length := by omega
      rw [if_neg (by
        rw [List.getD_eq_getElem list junkListener hin]
        exact habs _ (List.getElem_mem hin))]
      exact ih (i + 1) stop hstop
    · rw [if_neg hi]

theorem offUpperGo_le (list : List Listener) (p : Int) :
    ∀ (gas : Nat) (l : Nat) (r : Int), offUpperGo list p gas l r ≤ r := by
  intro gas
  induction gas with
  | zero => intro l r; exact le_refl _
  | succ gas ih =>
    intro l r
    simp only [offUpperGo]
    by_cases hlr : (l : Int) ≤ r
    · rw [if_pos hlr]
      have hr0 : 0 ≤ r := le_trans (by omega) hlr
      by_cases hc : (list.getD ((l + r.toNat) / 2) junkListener).prio ≤ p
      · rw [if_pos hc]
        exact ih _ r
      · rw [if_neg hc]
        refine le_trans (ih _ _) ?_
        have hm : ((l + r.toNat) / 2 : Nat) ≤ r.toNat := by omega
        omega
    · rw [if_neg hlr]

theorem scanIGo_none {list : List Listener} {cb : Nat} {ctx : Option Nat}
    (habs : ∀ x ∈ list, ¬(x.cb = cb ∧ x.ctx = ctx)) :
    ∀ (gas i : Nat) (stop : Int), stop < list.length →
      scanIGo list cb ctx gas i stop = none := by
  intro gas
  induction gas with
  | zero => intro i stop hstop; rfl
  | succ gas ih =>
    intro i stop hstop
    simp only [scanIGo]
    by_cases hi : (i : Int) ≤ stop
    · rw [if_pos hi]
      have hin : i < list.length := by omega
      rw [if_neg (by
        rw [List.getD_eq_getElem list junkListener hin]
        exact habs _ (List.getElem_mem hin))]
      exact ih (i + 1) stop hstop
    · rw [if_neg hi]

theorem offCore_absent {st1 : MState} {ch : Channel} {b : Bucket} {cb : Nat}
    {ctx : Option Nat} (hne : b.list ≠ [])
    (habs : ∀ x ∈ b.list, ¬(x.cb = cb ∧ x.ctx = ctx)) :
    offCore st1 ch b (some cb) ctx = st1 := by
  rw [offCore.eq_def]
  rw [if_neg hne]
  dsimp only
  have hlen : 0 < b.list.length := List.length_pos.mpr hne
  have h0 : ¬((b.list.getD 0 junkListener).cb = cb ∧
      (b.list.getD 0 junkListener).ctx = ctx) := by
    rw [List.getD_eq_getElem b.list junkListener hlen]
    exact habs _ (List.getElem_mem hlen)
  have hlast : ¬((b.list.getD (b.list.length - 1) junkListener).cb = cb ∧
      (b.list.getD (b.list.length - 1) junkListener).ctx = ctx) := by
    have hin : b.list.length - 1 < b.list.length := by omega
    rw [List.getD_eq_getElem b.list junkListener hin]
    exact habs _ (List.getElem_mem hin)
  rw [if_neg h0, if_neg hlast]
  by_cases hsmall : b.list.length < 10 ∨
      (b.list.getD 0 junkListener).prio = (b.list.getD (b.list.length - 1) junkListener).prio
  · rw [if_pos hsmall]
    rw [scanGo_none habs _ _ _ (by omega)]
  · rw [if_neg hsmall]
    cases hp : b.index.getPriority cb ctx with
    | none => rfl
    | some p =>
      dsimp only
      rw [scanIGo_none habs _ _ _
        (lt_of_le_of_lt (offUpperGo_le b.list p _ _ _) (by omega))]

/-- C9 (counterexample): `remove` of an absent pair on a channel whose
bucket is locked by an in-progress emission does not leave the state
unchanged — the copy-on-write clone runs before the absence check, so the
lock flag is cleared and the sequence replaced by a fresh copy. -/
theorem C9_counterexample_locked_removal_mutates :
    offOp
      { registry := [(chX,
          { arrId := 0
            list := [⟨1, 7, none, 0, false⟩]
            locked := true
            index := ⟨[], [(7, 0)]⟩ })]
        fresh := 2, called := [], log := [] } chX (some 9) none =
      { registry := [(chX,
          { arrId := 2
            list := [⟨1, 7, none, 0, false⟩]
            locked := false
            index := ⟨[], [(7, 0)]⟩ })]
        fresh := 3, called := [], log := [] } ∧
    offOp
      { registry := [(chX,
          { arrId := 0
            list := [⟨1, 7, none, 0, false⟩]
            locked := true
            index := ⟨[], [(7, 0)]⟩ })]
        fresh := 2, called := [], log := [] } chX (some 9) none ≠
      { registry := [(chX,
          { arrId := 0
            list := [⟨1, 7, none, 0, false⟩]
            locked := true
            index := ⟨[], [(7, 0)]⟩ })]
        fresh := 2, called := [], log := [] } := by
  refine ⟨by decide, by decide⟩

/-- C9 (amended): `remove` of an absent `(channel, callback, context)`
never raises (`offOp` is a total function); if the channel is missing, or
its nonempty bucket is unlocked, the state is exactly unchanged; if the
nonempty bucket is locked, the only change is the pre-check copy-on-write
step: the lock flag is cleared and the sequence array is replaced by a
fresh identical copy — listener records and index are untouched. -/
theorem C9_amended_removal_idempotent {st : MState} {ch : Channel} {cb : Nat}
    {ctx : Option Nat} :
    (alGet ch st.registry = none → offOp st ch (some cb) ctx = st) ∧
    (∀ b, alGet ch st.registry = some b → b.list ≠ [] →
      (∀ x ∈ b.list, ¬(x.cb = cb ∧ x.ctx = ctx)) →
      (b.locked = false → offOp st ch (some cb) ctx = st) ∧
      (b.locked = true → offOp st ch (some cb) ctx =
        { st with
          fresh := st.fresh + 1,
          registry := alSet ch { b with locked := false, arrId := st.fresh }
            st.registry })) := by
  constructor
  · intro hg
    rw [offOp, hg]
  · intro b hg hne habs
    constructor
    · intro hlock
      rw [offOp, hg]
      dsimp only
      rw [hlock]
      simp only [Bool.false_eq_true, if_false]
      exact offCore_absent hne habs
    · intro hlock
      rw [offOp, hg]
      dsimp only
      rw [hlock]
      simp only [if_true]
      exact offCore_absent hne habs

/-- Witness for the amended C9 at a concrete input: removal of an absent
pair on a locked single-listener bucket clears the lock and clones the
array, leaving listeners and index unchanged. -/
theorem C9_amended_removal_idempotent_witness :
    offOp
      { registry := [(chX,
          { arrId := 0
            list := [⟨1, 7, none, 0, false⟩]
            locked := true
            index := ⟨[], [(7, 0)]⟩ })]
        fresh := 2, called := [], log := [] } chX (some 9) none =
      { registry := alSet chX
          { arrId := 2
            list := [⟨1, 7, none, 0, false⟩]
            locked := false
            index := ⟨[], [(7, 0)]⟩ }
          [(chX,
            { arrId := 0
              list := [⟨1, 7, none, 0, false⟩]
              locked := true
              index := ⟨[], [(7, 0)]⟩ })]
        fresh := 3, called := [], log := [] } :=
  (C9_amended_removal_idempotent.2
    { arrId := 0
      list := [⟨1, 7, none, 0, false⟩]
      locked := true
      index := ⟨[], [(7, 0)]⟩ } (by decide) (by decide) (by decide)).2 (by decide)

/-- C8 (counterexample): a re-entrant `emit` on an already-locked channel
does not leave the lock flag untouched. Directly: an `emit` on a locked
bucket ends with the flag cleared. End to end: callback 7 emits on its own
channel from inside the outer emission; after the outer emit returns, the
bucket's flag is `false`, although under the claim only the outer emit
(whose snapshot is no longer the live array) could have cleared it. -/
theorem C8_counterexample_nested_emit_clears_lock :
    (match runEmit 0 envNil
        { registry := [(chX,
            { arrId := 0
              list := [⟨1, 7, none, 0, false⟩]
              locked := true
              index := ⟨[], [(7, 0)]⟩ })]
          fresh := 2, called := [], log := [] } chX with
      | Res.ok st' _ => (alGet chX st'.registry).map (fun b => b.locked)
      | _ => none) = some false ∧
    (match runEmit 2 (fun cb _ n => if cb = 7 ∧ n = 0 then [Cmd.emitCmd chX] else [])
        { registry := [(chX,
            { arrId := 0
              list := [⟨1, 7, none, 0, false⟩]
              locked := false
              index := ⟨[], [(7, 0)]⟩ })]
          fresh := 2, called := [], log := [] } chX with
      | Res.ok st' _ => (alGet chX st'.registry).map (fun b => (b.locked, b.arrId))
      | _ => none) = some (false, 2) := by
  refine ⟨by decide, by decide⟩

/-- C8 (amended): a re-entrant `emit` on an already-locked nonempty bucket
never takes ownership of the lock by setting it — it clones the sequence
into a fresh array which becomes the live bucket state — but at its own
reconciliation it clears the lock flag whenever the live sequence is still
its clone (so the flag set by the outer emit is cleared by the nested
call, not by the owner); shown here for inert callbacks: the emission
succeeds, and the resulting bucket, if it survives compaction, carries the
fresh clone identity and a cleared lock flag. -/
theorem C8_amended_reentrant_emit_clones_and_unlocks {env : Env} {st : MState}
    {ch : Channel} {b : Bucket} (hinert : EnvInert env) (fuel : Nat)
    (hkeys : (alKeys st.registry).Nodup) (hg : alGet ch st.registry = some b)
    (hlock : b.locked = true) (hne : b.list ≠ []) (hfr : b.arrId ≠ st.fresh) :
    ∃ st', runEmit fuel env st ch = Res.ok st' (true, b.list.map (mkEntry ch)) ∧
      ∀ b', alGet ch st'.registry = some b' →
        b'.arrId = st.fresh ∧ b'.arrId ≠ b.arrId ∧ b'.locked = false := by
  rw [runEmit_inert hinert]
  simp only [plainStep, hg, if_neg hne, hlock, if_true]
  rw [emitCompact]
  dsimp only
  split
  · split
    · refine ⟨_, rfl, ?_⟩
      intro b' hb'
      rw [alGet_alDelete_self ch
        (alKeys_alSet_nodup ch _ (alKeys_alSet_nodup ch _ hkeys))] at hb'
      cases hb'
    · refine ⟨_, rfl, ?_⟩
      intro b' hb'
      rw [alGet_alSet_self] at hb'
      injection hb' with hb'
      rw [← hb']
      exact ⟨rfl, fun he => hfr he.symm, rfl⟩
  · refine ⟨_, rfl, ?_⟩
    intro b' hb'
    rw [alGet_alSet_self] at hb'
    injection hb' with hb'
    rw [← hb']
    exact ⟨rfl, fun he => hfr he.symm, rfl⟩

/-- Witness for the amended C8 at a concrete input: an emit on a locked
single-listener bucket clones the array (identity 2) and leaves the flag
cleared. -/
theorem C8_amended_reentrant_emit_clones_and_unlocks_witness :
    ∃ st', runEmit 0 envNil
        { registry := [(chX,
            { arrId := 0
              list := [⟨1, 7, none, 0, false⟩]
              locked := true
              index := ⟨[], [(7, 0)]⟩ })]
          fresh := 2, called := [], log := [] } chX =
        Res.ok st' (true, [⟨chX, 7, none, 0⟩]) ∧
      ∀ b', alGet chX st'.registry = some b' →
        b'.arrId = 2 ∧ b'.arrId ≠ 0 ∧ b'.locked = false :=
  @C8_amended_reentrant_emit_clones_and_unlocks envNil
    { registry := [(chX,
        { arrId := 0
          list := [⟨1, 7, none, 0, false⟩]
          locked := true
          index := ⟨[], [(7, 0)]⟩ })]
      fresh := 2, called := [], log := [] } chX
    { arrId := 0
      list := [⟨1, 7, none, 0, false⟩]
      locked := true
      index := ⟨[], [(7, 0)]⟩ }
    (fun _ _ _ => rfl) 0 (by decide) (by decide) (by decide) (by decide) (by decide)

theorem mem_markAll {lid : Nat} : ∀ {snap : List Listener} {called : List Nat},
    (lid ∈ markAll called snap ↔
      lid ∈ called ∨ ∃ x ∈ snap, x.onceFlag = true ∧ x.lid = lid) := by
  intro snap
  induction snap with
  | nil => intro called; simp [markAll]
  | cons y rest ih =>
    intro called
    by_cases hy : y.onceFlag
    · rw [show markAll called (y :: rest) = markAll (called.insert y.lid) rest from by
        simp [markAll, hy]]
      rw [ih]
      simp only [List.mem_insert_iff, List.mem_cons]
      constructor
      · rintro ((he | hc) | ⟨x, hx, hxo, hxl⟩)
        · exact Or.inr ⟨y, Or.inl rfl, hy, he.symm⟩
        · exact Or.inl hc
        · exact Or.inr ⟨x, Or.inr hx, hxo, hxl⟩
      · rintro (hc | ⟨x, hx | hx, hxo, hxl⟩)
        · exact Or.inl (Or.inr hc)
        · exact Or.inl (Or.inl (by rw [← hx, hxl]))
        · exact Or.inr ⟨x, hx, hxo, hxl⟩
    · rw [show markAll called (y :: rest) = markAll called rest from by
        simp [markAll, hy]]
      rw [ih]
      simp only [List.mem_cons]
      constructor
      · rintro (hc | ⟨x, hx, hxo, hxl⟩)
        · exact Or.inl hc
        · exact Or.inr ⟨x, Or.inr hx, hxo, hxl⟩
      · rintro (hc | ⟨x, hx | hx, hxo, hxl⟩)
        · exact Or.inl hc
        · exact absurd (hx ▸ hxo) (by simpa using hy)
        · exact Or.inr ⟨x, hx, hxo, hxl⟩

theorem markAll_no_once {snap : List Listener} {called : List Nat}
    (h : snap.any (fun x => x.onceFlag) = false) : markAll called snap = called := by
  induction snap generalizing called with
  | nil => rfl
  | cons y rest ih =>
    simp only [List.any_cons, Bool.or_eq_false_iff] at h
    rw [show markAll called (y :: rest) = markAll called rest from by
      simp [markAll, h.1]]
    exact ih h.2

theorem emitCompact_isOk (st2 : MState) (ch : Channel) (b3 : Bucket) (hasDel : Bool)
    (invs : List Entry) :
    ∃ st' r, emitCompact st2 ch b3 hasDel invs = Res.ok st' r := by
  rw [emitCompact]
  dsimp only
  split
  · split
    · exact ⟨_, _, rfl⟩
    · exact ⟨_, _, rfl⟩
  · exact ⟨_, _, rfl⟩

theorem plainStep_isOk (st : MState) (ch : Channel) :
    ∃ st' r, plainStep st ch = Res.ok st' r := by
  rw [plainStep.eq_def]
  split
  · exact ⟨_, _, rfl⟩
  · split
    · exact ⟨_, _, rfl⟩
    · exact emitCompact_isOk _ _ _ _ _

theorem plainState_eq {st : MState} {ch : Channel} {st' : MState}
    {r : Bool × List Entry} (h : plainStep st ch = Res.ok st' r) :
    plainState st ch = st' := by
  rw [plainState, h]

theorem alSet_self {α β : Type} [DecidableEq α] {k : α} {v : β} {l : List (α × β)}
    (h : alGet k l = some v) : alSet k v l = l := by
  induction l with
  | nil => simp [alGet] at h
  | cons hd tl ih =>
    obtain ⟨k'', v''⟩ := hd
    by_cases h2 : k = k''
    · subst h2
      simp [alGet] at h
      simp [alSet, h]
    · simp only [alGet, if_neg h2] at h
      simp [alSet, h2, ih h]

theorem alSet_alSet {α β : Type} [DecidableEq α] (k : α) (v1 v2 : β) (l : List (α × β)) :
    alSet k v1 (alSet k v2 l) = alSet k v1 l := by
  induction l with
  | nil => simp [alSet]
  | cons hd tl ih =>
    obtain ⟨k'', v''⟩ := hd
    by_cases h2 : k = k''
    · subst h2
      simp [alSet]
    · simp [alSet, h2, ih]

theorem plainStep_unlocked {st : MState} {ch : Channel} {b : Bucket}
    (hg : alGet ch st.registry = some b) (hlock : b.locked = false)
    (hne : b.list ≠ []) :
    plainStep st ch =
      if b.list.any (fun x => x.onceFlag) then
        if b.list.filter (fun x => decide (x.lid ∉ markAll st.called b.list)) = [] then
          Res.ok { st with
            registry := alDelete ch st.registry,
            called := markAll st.called b.list,
            log := st.log ++ b.list.map (mkEntry ch) } (true, b.list.map (mkEntry ch))
        else
          Res.ok { st with
            registry := alSet ch { b with
              list := b.list.filter (fun x => decide (x.lid ∉ markAll st.called b.list)),
              index := (b.list.filter
                  (fun x => decide (x.lid ∈ markAll st.called b.list))).foldl
                (fun acc x => acc.remove x.cb x.ctx) b.index } st.registry,
            called := markAll st.called b.list,
            log := st.log ++ b.list.map (mkEntry ch) } (true, b.list.map (mkEntry ch))
      else
        Res.ok { st with
          called := markAll st.called b.list,
          log := st.log ++ b.list.map (mkEntry ch) } (true, b.list.map (mkEntry ch)) := by
  obtain ⟨bArr, bList, bLocked, bIdx⟩ := b
  simp only at hlock
  subst hlock
  simp only [plainStep, hg, if_neg hne, Bool.false_eq_true, if_false]
  rw [emitCompact]
  dsimp only
  rw [alSet_alSet, alSet_self hg]

theorem goodBucket_step {st : MState} {ch : Channel} {l : Listener}
    (honce : l.onceFlag = false) (h : GoodBucket st ch l) :
    GoodBucket (plainState st ch) ch l := by
  obtain ⟨b, hg, hlock, hl, hlids, hcal, hkeys⟩ := h
  have hne : b.list ≠ [] := List.ne_nil_of_mem hl
  have hps := plainStep_unlocked hg hlock hne
  by_cases hany : b.list.any (fun x => x.onceFlag)
  · rw [if_pos hany] at hps
    have hlnotin : l.lid ∉ markAll st.called b.list := by
      rw [mem_markAll]
      rintro (hc | ⟨x, hx, hxo, hxl⟩)
      · exact hcal l hl hc
      · have hxl2 : x = l := List.inj_on_of_nodup_map hlids hx hl hxl
        rw [hxl2, honce] at hxo
        cases hxo
    have hkeepmem : l ∈ b.list.filter
        (fun x => decide (x.lid ∉ markAll st.called b.list)) :=
      List.mem_filter.mpr ⟨hl, by simpa using hlnotin⟩
    rw [if_neg (List.ne_nil_of_mem hkeepmem)] at hps
    rw [plainState_eq hps]
    refine ⟨_, alGet_alSet_self _ _ _, hlock, hkeepmem, ?_, ?_, ?_⟩
    · exact ((List.filter_sublist _).map _).nodup hlids
    · intro x hx
      simpa using (List.mem_filter.mp hx).2
    · exact alKeys_alSet_nodup ch _ hkeys
  · rw [if_neg hany] at hps
    rw [plainState_eq hps]
    rw [markAll_no_once (by simpa using hany)] at hps ⊢
    exact ⟨b, hg, hlock, hl, hlids, hcal, hkeys⟩

/-- C10: an `emit` whose callbacks do not themselves remove listeners
never removes a listener registered with `once = false`: the post-emission
compaction keeps every record whose fired flag is false, and the flag is
set only for `once` listeners, so such a listener survives one emission
and, by iteration, any number of emissions. -/
theorem C10_non_once_listener_survives_emit {env : Env} {st : MState} {ch : Channel}
    {l : Listener} (hinert : EnvInert env) (hgood : GoodBucket st ch l)
    (honce : l.onceFlag = false) :
    (∀ fuel, ∃ st' r, runEmit fuel env st ch = Res.ok st' r ∧
      ∃ b', alGet ch st'.registry = some b' ∧ l ∈ b'.list) ∧
    (∀ n, ∃ b', alGet ch (plainEmitN n st ch).registry = some b' ∧ l ∈ b'.list) := by
  constructor
  · intro fuel
    obtain ⟨st', r, hps⟩ := plainStep_isOk st ch
    refine ⟨st', r, by rw [runEmit_inert hinert, hps], ?_⟩
    have hg2 := goodBucket_step honce hgood
    rw [plainState_eq hps] at hg2
    obtain ⟨b', hb', -, hlb', -⟩ := hg2
    exact ⟨b', hb', hlb'⟩
  · intro n
    induction n generalizing st with
    | zero =>
      obtain ⟨b, hg, -, hl, -⟩ := hgood
      exact ⟨b, hg, hl⟩
    | succ n ih =>
      rw [plainEmitN]
      exact ih (goodBucket_step honce hgood)

/-- Witness for C10 at a concrete input: the non-`once` listener with
identity 1 is still registered after three emissions. -/
theorem C10_non_once_listener_survives_emit_witness :
    ∃ b', alGet chX (plainEmitN 3 stW chX).registry = some b' ∧
      (⟨1, 2, none, 10, false⟩ : Listener) ∈ b'.list :=
  (C10_non_once_listener_survives_emit (fun _ _ _ => rfl)
    ⟨bW, by decide, by decide, by decide, by decide, by decide, by decide⟩
    (by decide)).2 3

theorem countPair_append (log1 log2 : List Entry) (ch : Channel) (cb : Nat)
    (ctx : Option Nat) : countPair (log1 ++ log2) ch cb ctx =
      countPair log1 ch cb ctx + countPair log2 ch cb ctx := by
  simp [countPair, List.filter_append]

theorem countPair_map_zero {L : List Listener} {ch : Channel} {cb : Nat}
    {ctx : Option Nat} (h : ∀ x ∈ L, ¬(x.cb = cb ∧ x.ctx = ctx)) :
    countPair (L.map (mkEntry ch)) ch cb ctx = 0 := by
  rw [countPair, List.length_eq_zero]
  rw [List.filter_eq_nil_iff]
  intro e he
  rcases List.mem_map.mp he with ⟨x, hx, hxe⟩
  subst hxe
  simp only [mkEntry, decide_eq_true_eq]
  rintro ⟨-, hcb, hctx⟩
  exact h x hx ⟨hcb, hctx⟩

theorem countPair_map_one {L : List Listener} {l : Listener} {ch : Channel}
    (hnd : (pairsOf L).Nodup) (hl : l ∈ L) :
    countPair (L.map (mkEntry ch)) ch l.cb l.ctx = 1 := by
  induction L with
  | nil => simp at hl
  | cons y rest ih =>
    simp only [pairsOf, List.map_cons, List.nodup_cons] at hnd
    rcases List.mem_cons.mp hl with hly | hlr
    · subst hly
      rw [List.map_cons, countPair, List.filter_cons]
      rw [if_pos (by simp [mkEntry])]
      simp only [List.length_cons, Nat.add_left_eq_self.symm]
      have hz : countPair (rest.map (mkEntry ch)) ch l.cb l.ctx = 0 := by
        apply countPair_map_zero
        intro x hx hxp
        apply hnd.1
        rw [show (l.cb, l.ctx) = (x.cb, x.ctx) from by rw [hxp.1, hxp.2]]
        exact List.mem_map_of_mem _ hx
      rw [countPair] at hz
      omega
    · have hyne : ¬(y.cb = l.cb ∧ y.ctx = l.ctx) := by
        rintro ⟨hcb, hctx⟩
        apply hnd.1
        rw [show (y.cb, y.ctx) = (l.cb, l.ctx) from by rw [hcb, hctx]]
        exact List.mem_map_of_mem _ hlr
      have hfy : ¬((mkEntry ch y).ch = ch ∧ (mkEntry ch y).cb = l.cb ∧
          (mkEntry ch y).ctx = l.ctx) := by
        simp only [mkEntry]
        rintro ⟨-, h1, h2⟩
        exact hyne ⟨h1, h2⟩
      rw [List.map_cons, countPair, List.filter_cons, if_neg (by simpa using hfy)]
      exact ih hnd.2 hlr

theorem plainStep_none {st : MState} {ch : Channel} (hg : alGet ch st.registry = none) :
    plainStep st ch = Res.ok st (false, []) := by
  simp [plainStep, hg]

theorem plainStep_empty {st : MState} {ch : Channel} {b : Bucket}
    (hg : alGet ch st.registry = some b) (he : b.list = []) :
    plainStep st ch = Res.ok st (false, []) := by
  simp [plainStep, hg, he]

theorem tailInv_step {s : MState} {ch : Channel} {cb : Nat} {ctx : Option Nat}
    (h : TailInv s ch cb ctx) :
    TailInv (plainState s ch) ch cb ctx ∧
    countPair (plainState s ch).log ch cb ctx = countPair s.log ch cb ctx := by
  obtain ⟨hkeys, hpg, hun⟩ := h
  cases hgb : alGet ch s.registry with
  | none =>
    rw [plainState_eq (plainStep_none hgb)]
    exact ⟨⟨hkeys, hpg, hun⟩, rfl⟩
  | some b =>
    by_cases hne : b.list = []
    · rw [plainState_eq (plainStep_empty hgb hne)]
      exact ⟨⟨hkeys, hpg, hun⟩, rfl⟩
    · have hlock := hun b hgb
      have hps := plainStep_unlocked hgb hlock hne
      have habs : ∀ x ∈ b.list, ¬(x.cb = cb ∧ x.ctx = ctx) := hpg b hgb
      have hcnt0 : countPair (b.list.map (mkEntry ch)) ch cb ctx = 0 :=
        countPair_map_zero habs
      by_cases hany : b.list.any (fun x => x.onceFlag)
      · rw [if_pos hany] at hps
        by_cases hkeep :
            b.list.filter (fun x => decide (x.lid ∉ markAll s.called b.list)) = []
        · rw [if_pos hkeep] at hps
          rw [plainState_eq hps]
          refine ⟨⟨(alKeys_alDelete_sublist ch s.registry).nodup hkeys, ?_, ?_⟩, ?_⟩
          · intro b' hb'
            rw [alGet_alDelete_self ch hkeys] at hb'
            cases hb'
          · intro b' hb'
            rw [alGet_alDelete_self ch hkeys] at hb'
            cases hb'
          · simp [countPair_append, hcnt0]
        · rw [if_neg hkeep] at hps
          rw [plainState_eq hps]
          refine ⟨⟨alKeys_alSet_nodup ch _ hkeys, ?_, ?_⟩, ?_⟩
          · intro b' hb'
            rw [alGet_alSet_self] at hb'
            injection hb' with hb'
            rw [← hb']
            intro x hx
            exact habs x (List.mem_filter.mp hx).1
          · intro b' hb'
            rw [alGet_alSet_self] at hb'
            injection hb' with hb'
            rw [← hb']
            exact hlock
          · simp [countPair_append, hcnt0]
      · rw [if_neg hany] at hps
        rw [plainState_eq hps]
        exact ⟨⟨hkeys, hpg, hun⟩, by simp [countPair_append, hcnt0]⟩

theorem tailInv_iter {s : MState} {ch : Channel} {cb : Nat} {ctx : Option Nat}
    (h : TailInv s ch cb ctx) :
    ∀ n, countPair (plainEmitN n s ch).log ch cb ctx = countPair s.log ch cb ctx := by
  intro n
  induction n generalizing s with
  | zero => rfl
  | succ n ih =>
    rw [plainEmitN]
    rw [ih (tailInv_step h).1]
    exact (tailInv_step h).2

/-- C2: a listener registered with `once = true` fires exactly once across
any number of emissions on its channel (with callbacks that do not mutate
the registry): the firing emission logs its pair exactly once, after that
emission the listener is gone from both the sequence and the index, the
identical pair can be registered again, and no later emission invokes the
pair again. -/
theorem C2_once_listener_fires_exactly_once {env : Env} {st : MState} {ch : Channel}
    {b : Bucket} {l : Listener} (hinert : EnvInert env)
    (hg : alGet ch st.registry = some b) (hlock : b.locked = false)
    (hl : l ∈ b.list) (honce : l.onceFlag = true)
    (hpairs : (pairsOf b.list).Nodup)
    (hkeys : (alKeys st.registry).Nodup) (hwf : IndexWF b.index) :
    (∀ fuel, runEmit fuel env st ch =
      Res.ok (plainState st ch) (true, b.list.map (mkEntry ch))) ∧
    countPair (b.list.map (mkEntry ch)) ch l.cb l.ctx = 1 ∧
    countPair (plainState st ch).log ch l.cb l.ctx =
      countPair st.log ch l.cb l.ctx + 1 ∧
    PairGone (plainState st ch) ch l.cb l.ctx ∧
    (∀ b', alGet ch (plainState st ch).registry = some b' →
      b'.index.has l.cb l.ctx = false) ∧
    (∀ (o2 : Bool) (p2 : Int), ∃ st2,
      addListener (plainState st ch) ch o2 p2 l.cb l.ctx = Except.ok st2) ∧
    (∀ n, countPair (plainEmitN n (plainState st ch) ch).log ch l.cb l.ctx =
      countPair (plainState st ch).log ch l.cb l.ctx) := by
  have hne : b.list ≠ [] := List.ne_nil_of_mem hl
  have hany : b.list.any (fun x => x.onceFlag) = true :=
    List.any_eq_true.mpr ⟨l, hl, honce⟩
  have hps := plainStep_unlocked hg hlock hne
  rw [if_pos hany] at hps
  have hlin : l.lid ∈ markAll st.called b.list :=
    mem_markAll.mpr (Or.inr ⟨l, hl, honce, rfl⟩)
  have hcount1 : countPair (b.list.map (mkEntry ch)) ch l.cb l.ctx = 1 :=
    countPair_map_one hpairs hl
  by_cases hkeep : b.list.filter (fun x => decide (x.lid ∉ markAll st.called b.list)) = []
  · rw [if_pos hkeep] at hps
    have hst := plainState_eq hps
    have hrun : ∀ fuel, runEmit fuel env st ch =
        Res.ok (plainState st ch) (true, b.list.map (mkEntry ch)) := by
      intro fuel
      rw [runEmit_inert hinert, hps, hst]
    have hnone : alGet ch (plainState st ch).registry = none := by
      rw [hst]
      exact alGet_alDelete_self ch hkeys
    have hgone : PairGone (plainState st ch) ch l.cb l.ctx := by
      intro b' hb'
      rw [hnone] at hb'
      cases hb'
    have htail : TailInv (plainState st ch) ch l.cb l.ctx := by
      refine ⟨?_, hgone, ?_⟩
      · rw [hst]
        exact (alKeys_alDelete_sublist ch st.registry).nodup hkeys
      · intro b' hb'
        rw [hnone] at hb'
        cases hb'
    refine ⟨hrun, hcount1, ?_, hgone, ?_, ?_, tailInv_iter htail⟩
    · rw [hst]
      simp [countPair_append, hcount1]
    · intro b' hb'
      rw [hnone] at hb'
      cases hb'
    · intro o2 p2
      apply addListener_ok_of_not_has
      intro b' hb'
      rw [hnone] at hb'
      cases hb'
  · rw [if_neg hkeep] at hps
    have hst := plainState_eq hps
    have hrun : ∀ fuel, runEmit fuel env st ch =
        Res.ok (plainState st ch) (true, b.list.map (mkEntry ch)) := by
      intro fuel
      rw [runEmit_inert hinert, hps, hst]
    have hbk : alGet ch (plainState st ch).registry = some
        { b with
          list := b.list.filter (fun x => decide (x.lid ∉ markAll st.called b.list)),
          index := (b.list.filter
              (fun x => decide (x.lid ∈ markAll st.called b.list))).foldl
            (fun acc x => acc.remove x.cb x.ctx) b.index } := by
      rw [hst]
      exact alGet_alSet_self _ _ _
    have hgone : PairGone (plainState st ch) ch l.cb l.ctx := by
      intro b' hb'
      rw [hbk] at hb'
      injection hb' with hb'
      rw [← hb']
      intro x hx hxp
      have hxb : x ∈ b.list := (List.mem_filter.mp hx).1
      have hxl : x = l := List.inj_on_of_nodup_map hpairs hxb hl
        (by rw [Prod.mk.injEq]; exact ⟨hxp.1, hxp.2⟩)
      have := (List.mem_filter.mp hx).2
      rw [hxl] at this
      simp only [decide_eq_true_eq] at this
      exact this hlin
    have hhasF : ∀ b', alGet ch (plainState st ch).registry = some b' →
        b'.index.has l.cb l.ctx = false := by
      intro b' hb'
      rw [hbk] at hb'
      injection hb' with hb'
      rw [← hb']
      apply foldRemove_has_false hwf
      refine Or.inl ⟨l, ?_, rfl, rfl⟩
      exact List.mem_filter.mpr ⟨hl, by simpa using hlin⟩
    have htail : TailInv (plainState st ch) ch l.cb l.ctx := by
      refine ⟨?_, hgone, ?_⟩
      · rw [hst]
        exact alKeys_alSet_nodup ch _ hkeys
      · intro b' hb'
        rw [hbk] at hb'
        injection hb' with hb'
        rw [← hb']
        exact hlock
    refine ⟨hrun, hcount1, ?_, hgone, hhasF, ?_, tailInv_iter htail⟩
    · rw [hst]
      simp [countPair_append, hcount1]
    · intro o2 p2
      apply addListener_ok_of_not_has
      intro b' hb'
      exact hhasF b' hb'

/-- Witness for C2 at a concrete input: the single `once` listener's pair
is logged exactly once by the firing emission. -/
theorem C2_once_listener_fires_exactly_once_witness :
    countPair (([⟨1, 5, none, 0, true⟩] : List Listener).map (mkEntry chX)) chX 5 none = 1 :=
  (@C2_once_listener_fires_exactly_once envNil
    { registry := [(chX,
        { arrId := 0
          list := [⟨1, 5, none, 0, true⟩]
          locked := false
          index := ⟨[], [(5, 0)]⟩ })]
      fresh := 2, called := [], log := [] } chX
    { arrId := 0
      list := [⟨1, 5, none, 0, true⟩]
      locked := false
      index := ⟨[], [(5, 0)]⟩ }
    ⟨1, 5, none, 0, true⟩
    (fun _ _ _ => rfl) (by decide) (by decide) (by decide) (by decide) (by decide)
    (by decide) (by decide)).2.1

/-- C6: a listener registered from inside a callback during an in-progress
emission on the same channel is not invoked by the emission currently in
progress, but is invoked by the next emit call on that channel. Concretely:
with one `once` listener `cbA` whose callback registers `cbB` on the same
channel, the first emission invokes only `cbA` (the invocation list and the
resulting log contain no entry for `cbB`), leaves the registry holding
exactly the freshly registered `cbB`, and the next emission invokes
`cbB`. -/
theorem C6_reentrant_registration_deferred {env : Env} {ch : Channel}
    {cbA cbB : Nat} {pA pB : Int} (hne : cbB ≠ cbA)
    (hA : env cbA none 0 = [Cmd.register ch false pB cbB none])
    (hB : env cbB none 0 = []) (fuel1 fuel2 : Nat) :
    runEmit fuel1 env
      { registry := [(ch,
          { arrId := 1
            list := [⟨0, cbA, none, pA, true⟩]
            locked := false
            index := ⟨[], [(cbA, pA)]⟩ })]
        fresh := 2, called := [], log := [] } ch =
      Res.ok
        { registry := [(ch,
            { arrId := 2
              list := [⟨3, cbB, none, pB, false⟩]
              locked := false
              index := ⟨[], [(cbB, pB)]⟩ })]
          fresh := 4, called := [0], log := [⟨ch, cbA, none, pA⟩] }
        (true, [⟨ch, cbA, none, pA⟩]) ∧
    countInv [⟨ch, cbA, none, pA⟩] cbB none = 0 ∧
    runEmit fuel2 env
      { registry := [(ch,
          { arrId := 2
            list := [⟨3, cbB, none, pB, false⟩]
            locked := false
            index := ⟨[], [(cbB, pB)]⟩ })]
        fresh := 4, called := [0], log := [⟨ch, cbA, none, pA⟩] } ch =
      Res.ok
        { registry := [(ch,
            { arrId := 2
              list := [⟨3, cbB, none, pB, false⟩]
              locked := false
              index := ⟨[], [(cbB, pB)]⟩ })]
          fresh := 4, called := [0]
          log := [⟨ch, cbA, none, pA⟩, ⟨ch, cbB, none, pB⟩] }
        (true, [⟨ch, cbB, none, pB⟩]) := by
  refine ⟨?_, ?_, ?_⟩
  · rw [runEmit_eq_runEmitH]
    by_cases hpp : pA ≤ pB
    · simp [runEmitH, emitLoopH, runCmdsH, runCmdH, addListener, alGet, alSet, Index.has,
        Index.insert, insertSorted, emitFinish, emitCompact, countInv, mkEntry, hA, hne,
        hpp, markAll, Index.remove, alDelete, List.insert]
    · simp [runEmitH, emitLoopH, runCmdsH, runCmdH, addListener, alGet, alSet, Index.has,
        Index.insert, insertSorted, emitFinish, emitCompact, countInv, mkEntry, hA, hne,
        hpp, markAll, Index.remove, alDelete, List.insert, le_of_lt (lt_of_not_le hpp)]
  · simp [countInv, Ne.symm hne]
  · rw [runEmit_eq_runEmitH]
    simp [runEmitH, emitLoopH, runCmdsH, runCmdH, alGet, alSet, emitFinish, emitCompact,
      countInv, mkEntry, hB, Ne.symm hne]

/-- Witness for C6 at a concrete input: the second emission invokes the
listener that was registered during the first emission. -/
theorem C6_reentrant_registration_deferred_witness :
    runEmit 0
      (fun cb _ n => if cb = 1 ∧ n = 0 then [Cmd.register chX false 5 2 none] else [])
      { registry := [(chX,
          { arrId := 2
            list := [⟨3, 2, none, 5, false⟩]
            locked := false
            index := ⟨[], [(2, 5)]⟩ })]
        fresh := 4, called := [0], log := [⟨chX, 1, none, 0⟩] } chX =
      Res.ok
        { registry := [(chX,
            { arrId := 2
              list := [⟨3, 2, none, 5, false⟩]
              locked := false
              index := ⟨[], [(2, 5)]⟩ })]
          fresh := 4, called := [0]
          log := [⟨chX, 1, none, 0⟩, ⟨chX, 2, none, 5⟩] }
        (true, [⟨chX, 2, none, 5⟩]) :=
  (@C6_reentrant_registration_deferred
    (fun cb _ n => if cb = 1 ∧ n = 0 then [Cmd.register chX false 5 2 none] else [])
    chX 1 2 0 5 (by decide) rfl rfl 0 0).2.2

/-- C7: a listener present in the snapshot when an emission begins and then
removed by an earlier callback before being reached is still invoked by the
current emission, and only subsequent emissions omit it. Concretely: with a
bucket `[cbA, cbB]` where `cbA`'s first invocation removes `cbB`, the first
emission still invokes both (copy-on-write replaces the registry's sequence
while the loop keeps its snapshot), the resulting registry holds only `cbA`
in a freshly cloned array, and the next emission invokes only `cbA`. -/
theorem C7_removal_during_emission_deferred {env : Env} {ch : Channel}
    {cbA cbB : Nat} {pA pB : Int} (hne : cbB ≠ cbA)
    (hA0 : env cbA none 0 = [Cmd.removeOne ch cbB none])
    (hA1 : env cbA none 1 = [])
    (hB : env cbB none 0 = []) (fuel1 fuel2 : Nat) :
    runEmit fuel1 env
      { registry := [(ch,
          { arrId := 1
            list := [⟨0, cbA, none, pA, false⟩, ⟨1, cbB, none, pB, false⟩]
            locked := false
            index := ⟨[], [(cbA, pA), (cbB, pB)]⟩ })]
        fresh := 2, called := [], log := [] } ch =
      Res.ok
        { registry := [(ch,
            { arrId := 2
              list := [⟨0, cbA, none, pA, false⟩]
              locked := false
              index := ⟨[], [(cbA, pA), (cbB, pB)]⟩ })]
          fresh := 3, called := []
          log := [⟨ch, cbA, none, pA⟩, ⟨ch, cbB, none, pB⟩] }
        (true, [⟨ch, cbA, none, pA⟩, ⟨ch, cbB, none, pB⟩]) ∧
    runEmit fuel2 env
      { registry := [(ch,
          { arrId := 2
            list := [⟨0, cbA, none, pA, false⟩]
            locked := false
            index := ⟨[], [(cbA, pA), (cbB, pB)]⟩ })]
        fresh := 3, called := []
        log := [⟨ch, cbA, none, pA⟩, ⟨ch, cbB, none, pB⟩] } ch =
      Res.ok
        { registry := [(ch,
            { arrId := 2
              list := [⟨0, cbA, none, pA, false⟩]
              locked := false
              index := ⟨[], [(cbA, pA), (cbB, pB)]⟩ })]
          fresh := 3, called := []
          log := [⟨ch, cbA, none, pA⟩, ⟨ch, cbB, none, pB⟩, ⟨ch, cbA, none, pA⟩] }
        (true, [⟨ch, cbA, none, pA⟩]) ∧
    countInv [⟨ch, cbA, none, pA⟩] cbB none = 0 := by
  refine ⟨?_, ?_, ?_⟩
  · rw [runEmit_eq_runEmitH]
    simp [runEmitH, emitLoopH, runCmdsH, runCmdH, offOp, offCore, alGet, alSet,
      emitFinish, emitCompact, countInv, mkEntry, hA0, hB, hne, Ne.symm hne]
  · rw [runEmit_eq_runEmitH]
    simp [runEmitH, emitLoopH, runCmdsH, runCmdH, alGet, alSet,
      emitFinish, emitCompact, countInv, mkEntry, hA1, hne, Ne.symm hne]
  · simp [countInv, Ne.symm hne]

/-- Witness for C7 at a concrete input: the emission during which the
second listener is removed still invokes both listeners. -/
theorem C7_removal_during_emission_deferred_witness :
    runEmit 0
      (fun cb _ n => if cb = 1 ∧ n = 0 then [Cmd.removeOne chX 2 none] else [])
      { registry := [(chX,
          { arrId := 1
            list := [⟨0, 1, none, 0, false⟩, ⟨1, 2, none, 5, false⟩]
            locked := false
            index := ⟨[], [(1, 0), (2, 5)]⟩ })]
        fresh := 2, called := [], log := [] } chX =
      Res.ok
        { registry := [(chX,
            { arrId := 2
              list := [⟨0, 1, none, 0, false⟩]
              locked := false
              index := ⟨[], [(1, 0), (2, 5)]⟩ })]
          fresh := 3, called := []
          log := [⟨chX, 1, none, 0⟩, ⟨chX, 2, none, 5⟩] }
        (true, [⟨chX, 1, none, 0⟩, ⟨chX, 2, none, 5⟩]) :=
  (@C7_removal_during_emission_deferred
    (fun cb _ n => if cb = 1 ∧ n = 0 then [Cmd.removeOne chX 2 none] else [])
    chX 1 2 0 5 (by decide) rfl rfl rfl 0 0).1
